import Mathlib

/-!
Verification development for `pycp.py`, a cp-like copy tool.

The Python source is shallowly embedded as executable Lean functions:

* byte-level transfer: `is_all_zero`, `write_buffered_with_sparse` model the
  buffered sparse-aware writer (file bytes are `List Nat`, the destination
  stream is a pair of current data and write offset; `os.lseek` past the end
  of file does not extend the file, and the writer issues no final truncate,
  exactly as in the source);
* skip policy: `should_skip_copy` (a failed `os.path.getmtime` call is an
  `Option.none` modification time);
* filesystem trees: `Entry` (regular file, symlink, directory); destination
  worlds are `Option Entry` rooted at the destination path.  Symlink entries
  record the target string together with how the target resolves
  (`LinkKind`): to a file, to a directory, or broken (dangling).  Path
  resolution *through* a symlink entry is outside the model: lookups stop at
  symlink entries, matching the fact that the linked subtree lives elsewhere
  in the real filesystem.  The tree walk is modelled for the tool's default
  `follow_symlinks = false` mode (the mode all tree-level claims are about).
* `copy_file` is modelled with explicit capability / failure oracles in the
  configuration (`sendfileOk`, `seekOk`, `replaceOk`, `moveOk`, and a
  per-call transfer-failure flag), a temp-file registry (`List String`,
  modelling the `_tempfiles` set), and an error channel (`Option PyErr`
  in place of a raised exception).  `tempfile.mkstemp` name generation is
  abstracted by a configured fresh name; `os.remove` of the temp file on the
  cleanup path is modelled as succeeding.
* `copy_tree` is modelled by flattening the `os.walk` traversal into a
  pre-order list of items (`WItem`) and folding a step function over it;
  per-file exceptions append the file's path to an error log (the
  `print(..., file=sys.stderr)` channel) while uncaught exceptions set a
  fatal field and stop the fold, as a raise aborts the walk.
-/

namespace Pycp

/-- Bytes of a file, one `Nat` per byte. -/
abbrev Bytes := List Nat

/-- Model of `is_all_zero` (pycp.py line 47): `b.count(0) == len(b)`. -/
def is_all_zero (b : Bytes) : Bool := b.count 0 = b.length

/-- Chunking loop with explicit fuel (structural recursion so that concrete
inputs evaluate inside the kernel).  Each iteration consumes at least one
byte when the buffer size is positive, so `s.length` fuel is enough. -/
def chunksGo (fuel : Nat) (bufsize : Nat) (s : Bytes) : List Bytes :=
  match fuel with
  | 0 => []
  | fuel + 1 =>
    if bufsize = 0 ∨ s = [] then []
    else s.take bufsize :: chunksGo fuel bufsize (s.drop bufsize)

/-- Split a byte string into the successive chunks returned by
`fin.read(bufsize)`.  A zero buffer size reads nothing, so the copy loop
terminates immediately with no chunks. -/
def chunks (bufsize : Nat) (s : Bytes) : List Bytes :=
  chunksGo s.length bufsize s

/-- State of the destination stream inside `write_buffered_with_sparse`:
the bytes currently in the file and the current write offset.  The offset
can run past the end of the data (after a hole-creating seek); the file is
only extended when a write lands there. -/
structure SWState where
  data : Bytes
  pos : Nat
deriving Repr

/-- Writing `c` at offset `pos`: the gap between the end of file and `pos`
reads back as zero bytes (filesystem zero fill), then `c` overwrites in
place, extending the file as needed. -/
def writeAt (data : Bytes) (pos : Nat) (c : Bytes) : Bytes :=
  let padded := data ++ List.replicate (pos - data.length) 0
  padded.take pos ++ c ++ padded.drop (pos + c.length)

/-- One iteration of the copy loop of `write_buffered_with_sparse`
(pycp.py lines 109-125): a chunk of length at least the sparse threshold
consisting of zero bytes takes the hole path (advance the offset, write
nothing) when seeking works, and is written literally otherwise. -/
def swStep (sparseThreshold : Nat) (seekOk : Bool) (st : SWState) (c : Bytes) : SWState :=
  if sparseThreshold ≤ c.length ∧ is_all_zero c then
    if seekOk then { st with pos := st.pos + c.length }
    else { data := writeAt st.data st.pos c, pos := st.pos + c.length }
  else { data := writeAt st.data st.pos c, pos := st.pos + c.length }

/-- Model of `write_buffered_with_sparse` (pycp.py lines 103-125): the
destination starts as the empty temp file, each chunk is processed by
`swStep`, and the resulting bytes are the final content.  No truncation or
final write happens after the loop, exactly as in the source. -/
def write_buffered_with_sparse (src : Bytes) (bufsize sparseThreshold : Nat)
    (seekOk : Bool) : Bytes :=
  ((chunks bufsize src).foldl (swStep sparseThreshold seekOk) ⟨[], 0⟩).data

/-- Model of `should_skip_copy` (pycp.py lines 221-233).  `dstExists` is
`os.path.exists(dst)`; the modification times are `none` when
`os.path.getmtime` raises, in which case the `except` branch returns
`False`. -/
def should_skip_copy (dstExists : Bool) (noClobber updateOnly : Bool)
    (srcMtime dstMtime : Option Int) : Bool :=
  if !dstExists then false
  else if noClobber then true
  else if updateOnly then
    match srcMtime, dstMtime with
    | some s, some d => decide (s ≤ d)
    | _, _ => false
  else false

/-- Python exception kinds raised by the embedded code paths. -/
inductive PyErr where
  | fileNotFound
  | isADirectory
  | fileExists
  | copyFailed
  | typeError
  | permissionDenied
deriving DecidableEq, Repr

/-- How a symlink entry's target string resolves: to a regular file, to a
directory, or nowhere (dangling link).  The resolution result is recorded on
the entry because the linked subtree itself lives outside the modelled
tree. -/
inductive LinkKind where
  | toFile
  | toDir
  | broken
deriving DecidableEq, Repr

/-- A filesystem entry: regular file with content and modification time,
symlink with target string and resolution, or directory with named
children.  A symlink entry's `mtime` is the resolved target's modification
time (`os.path.getmtime` follows links), meaningless when broken. -/
inductive Entry where
  | file (content : Bytes) (mtime : Int)
  | symlink (target : String) (kind : LinkKind) (mtime : Int)
  | dir (mtime : Int) (children : List (String × Entry))

/-- First entry with the given name, as directory listing lookup. -/
def lookupChild : List (String × Entry) → String → Option Entry
  | [], _ => none
  | (k, v) :: rest, n => if k = n then some v else lookupChild rest n

/-- Replace the first child with the given name, or append a new one. -/
def childSet : List (String × Entry) → String → Entry → List (String × Entry)
  | [], n, e => [(n, e)]
  | (k, v) :: rest, n, e => if k = n then (k, e) :: rest else (k, v) :: childSet rest n e

/-- Remove the first child with the given name. -/
def childErase : List (String × Entry) → String → List (String × Entry)
  | [], _ => []
  | (k, v) :: rest, n => if k = n then rest else (k, v) :: childErase rest n

/-- Write an optional entry under a name: `none` removes the child. -/
def childUpd (cs : List (String × Entry)) (n : String) : Option Entry → List (String × Entry)
  | none => childErase cs n
  | some e => childSet cs n e

/-- Pure structural path lookup in a destination world (`none` = the
destination root does not exist).  Lookups do not resolve through symlink
entries: the linked subtree lives outside the modelled tree. -/
def lookupE : Option Entry → List String → Option Entry
  | cur, [] => cur
  | some (.dir _ cs), n :: p => lookupE (lookupChild cs n) p
  | _, _ :: _ => none

/-- Update the entry at a path through a pure functional rewrite of the
spine.  When the path does not lead through directories the world is
returned unchanged (the corresponding OS call would fail; callers reach
such states only behind error handling). -/
def updAt : Option Entry → List String → (Option Entry → Option Entry) → Option Entry
  | cur, [], f => f cur
  | some (.dir m cs), n :: p, f =>
      some (.dir m (childUpd cs n (updAt (lookupChild cs n) p f)))
  | cur, _ :: _, _ => cur

/-- Model of `os.path.exists`: follows links, so a dangling symlink does not
exist. -/
def existsE : Option Entry → Bool
  | none => false
  | some (.symlink _ .broken _) => false
  | some _ => true

/-- Model of `os.path.islink` on an entry. -/
def islinkE : Entry → Bool
  | .symlink _ _ _ => true
  | _ => false

/-- Model of `os.path.isdir` on a destination world: follows links. -/
def isdirO : Option Entry → Bool
  | some (.dir _ _) => true
  | some (.symlink _ .toDir _) => true
  | _ => false

/-- Does a destination world hold an actual directory entry (not a link)? -/
def isRealDirO : Option Entry → Bool
  | some (.dir _ _) => true
  | _ => false

/-- Model of `os.path.getmtime` on an entry; `none` is a raised `OSError`
(dangling link). -/
def entryMtime : Entry → Option Int
  | .file _ m => some m
  | .symlink _ .broken _ => none
  | .symlink _ _ m => some m
  | .dir m _ => some m

/-- Model of `os.path.getmtime` on a destination world. -/
def optMtime : Option Entry → Option Int
  | none => none
  | some e => entryMtime e

/-- Bytes read when streaming the source entry.  The claims only stream
regular files (the tree model fixes `follow_symlinks = false`, under which
symlinks never reach the streaming path). -/
def contentOf : Entry → Bytes
  | .file c _ => c
  | _ => []

/-- The configuration handed to the engine, together with capability /
outcome oracles for the platform-dependent collaborators (`os.sendfile`
availability and success, `os.lseek` hole support, `os.replace` and
`shutil.move` outcomes) and the fresh temp name produced by
`tempfile.mkstemp`. -/
structure CopyConfig where
  recursive : Bool
  preserve : Bool
  followSymlinks : Bool
  noClobber : Bool
  updateOnly : Bool
  atomic : Bool
  bufsize : Nat
  sparseThreshold : Nat
  sendfileOk : Bool
  seekOk : Bool
  replaceOk : Bool
  moveOk : Bool
  tmpName : String

/-- Content produced in the temp file by the transfer step of `copy_file`
(pycp.py lines 164-183): the `os.sendfile` fast path copies the bytes
verbatim; otherwise `write_buffered_with_sparse` runs. -/
def transferContent (cfg : CopyConfig) (c : Bytes) : Bytes :=
  if cfg.sendfileOk then c
  else write_buffered_with_sparse c cfg.bufsize cfg.sparseThreshold cfg.seekOk

/-- Result of one `copy_file` call: the destination world, the temp-file
registry (`_tempfiles`), whether the temp file still exists on disk under
its temp name, and the exception raised out of the call, if any. -/
structure FOut where
  dst : Option Entry
  reg : List String
  tmpLive : Bool
  err : Option PyErr

/-- Model of `copy_file` (pycp.py lines 127-219) acting on the destination
slot `dst0`.  `tfail` says the byte transfer raised (the sendfile fast path
did not succeed and the buffered writer raised); `tmp` is the fresh name
from `tempfile.mkstemp`; `reg0` the registry on entry.  The parent
directory of the destination is ensured by the caller (`copy_tree` models
the `dst_dir.mkdir` call at lines 152-154 explicitly, since it mutates the
tree above the slot).  `os.remove` of the temp file on the cleanup path is
modelled as succeeding. -/
def copy_file (cfg : CopyConfig) (tfail : Bool) (src : Entry) (dst0 : Option Entry)
    (tmp : String) (reg0 : List String) : FOut :=
  -- line 136: Path.exists follows links, so a dangling symlink source raises
  if existsE (some src) = false then ⟨dst0, reg0, false, some .fileNotFound⟩
  else
    match src, cfg.followSymlinks with
    | .symlink t k m, false =>
      -- lines 139-150: replicate the link; symlink creation is treated as
      -- already atomic, no temp file is registered.  The replica keeps the
      -- source's target string (resolution at the new location is modelled
      -- as identical).
      if existsE dst0 then
        match dst0 with
        | some (.dir _ _) => ⟨dst0, reg0, false, some .isADirectory⟩  -- unlink raises
        | _ => ⟨some (.symlink t k m), reg0, false, none⟩
      else
        match dst0 with
        | none => ⟨some (.symlink t k m), reg0, false, none⟩
        | some _ => ⟨dst0, reg0, false, some .fileExists⟩  -- dangling link holds the name
    | src, _ =>
      let c := contentOf src
      if cfg.atomic then
        -- lines 157-204: mkstemp in the destination directory registers tmp
        if tfail then
          -- lines 184-191: remove the temp file, deregister, re-raise
          ⟨dst0, (tmp :: reg0).erase tmp, false, some .copyFailed⟩
        else
          let c2 := transferContent cfg c
          if cfg.replaceOk && !isRealDirO dst0 then
            -- lines 194-196: os.replace clobbers files and symlinks, never
            -- an existing directory
            ⟨some (.file c2 0), (tmp :: reg0).erase tmp, false, none⟩
          else if cfg.moveOk then
            -- lines 198-201: shutil.move fallback; moving onto an existing
            -- directory moves the temp file into it under its temp name
            match dst0 with
            | some (.dir dm dcs) =>
                ⟨some (.dir dm (childSet dcs tmp (.file c2 0))),
                  (tmp :: reg0).erase tmp, false, none⟩
            | _ => ⟨some (.file c2 0), (tmp :: reg0).erase tmp, false, none⟩
          else
            -- lines 202-204: deregister even though the move failed
            ⟨dst0, (tmp :: reg0).erase tmp, true, some .copyFailed⟩
      else
        -- lines 205-212: direct write; open(dst, 'wb') truncates first, a
        -- failing transfer leaves the truncated partial file behind
        match dst0 with
        | some (.dir _ _) => ⟨dst0, reg0, false, some .isADirectory⟩
        | _ =>
          if tfail then ⟨some (.file [] 0), reg0, false, some .copyFailed⟩
          else ⟨some (.file c 0), reg0, false, none⟩

/-- Outcomes of the individual OS calls made inside `preserve_metadata` and
`copy_xattrs`; each is an oracle, `Except.error` standing for a raised
exception of that kind. -/
structure MetaEnv where
  copystatFollow : Except PyErr Unit
  copystatPlain : Except PyErr Unit
  statRes : Except PyErr (Int × Int)
  chownFollow : Except PyErr Unit
  chownPlain : Except PyErr Unit
  hasXattr : Bool
  listxattrFollow : Except PyErr (List String)
  listxattrPlain : Except PyErr (List String)
  getxattr : String → Except PyErr Bytes
  setxattrFollow : String → Bytes → Except PyErr Unit
  setxattrPlain : String → Bytes → Except PyErr Unit

/-- A Python `try`/`except` block: run the body, handing a raised exception
to the handler. -/
def pyTry {α : Type} (body : Except PyErr α) (handler : PyErr → Except PyErr α) :
    Except PyErr α :=
  match body with
  | .ok a => .ok a
  | .error e => handler e

/-- One iteration of the attribute loop of `copy_xattrs` (pycp.py lines
60-69): get, set with a `TypeError` retry, and a catch-all `continue`. -/
def xattrOne (env : MetaEnv) (a : String) : Except PyErr Unit :=
  pyTry
    (do
      let v ← env.getxattr a
      pyTry (env.setxattrFollow a v)
        (fun e => if e = .typeError then env.setxattrPlain a v else .error e))
    (fun _ => .ok ())

/-- The attribute loop of `copy_xattrs`. -/
def xattrLoop (env : MetaEnv) : List String → Except PyErr Unit
  | [] => .ok ()
  | a :: rest => do
      let _ ← xattrOne env a
      xattrLoop env rest

/-- Model of `copy_xattrs` (pycp.py lines 51-71): the availability probe,
the `listxattr` call with its `TypeError` retry and the attribute loop, all
wrapped in a catch-all `except Exception: pass`. -/
def copy_xattrs (env : MetaEnv) : Except PyErr Unit :=
  pyTry
    (if env.hasXattr then do
      let attrs ← pyTry env.listxattrFollow
        (fun e => if e = .typeError then env.listxattrPlain else .error e)
      xattrLoop env attrs
    else .ok ())
    (fun _ => .ok ())

/-- Model of `preserve_metadata` (pycp.py lines 73-95): `copystat` with a
plain retry and a final swallow, the `stat`/`chown` block whose
`PermissionError` and generic handlers both swallow, then `copy_xattrs`. -/
def preserve_metadata (env : MetaEnv) : Except PyErr Unit := do
  let _ ← pyTry env.copystatFollow
    (fun _ => pyTry env.copystatPlain (fun _ => .ok ()))
  let _ ← pyTry
    (do
      let _st ← env.statRes
      pyTry env.chownFollow
        (fun e => if e = .typeError then env.chownPlain else .error e))
    (fun _ => .ok ())
  copy_xattrs env

/-- One action of the `os.walk` loop of `copy_tree` (pycp.py lines
268-305), with destination paths relative to the destination root:
`mkd rel` is the `os.makedirs(dst_dir, exist_ok=True)` call for a visited
directory, `copyf p e` one iteration of the files loop (skip check plus
guarded `copy_file`), and `symd p t m` one symlinked-subdirectory
replication. -/
inductive WItem where
  | mkd (rel : List String)
  | copyf (p : List String) (e : Entry)
  | symd (p : List String) (target : String) (m : Int)

/-- Entries listed in `files` by `os.walk`: regular files, symlinks to
files, and dangling symlinks. -/
def isWalkFile : Entry → Bool
  | .file _ _ => true
  | .symlink _ .toFile _ => true
  | .symlink _ .broken _ => true
  | _ => false

/-- Items of the files loop for one visited directory. -/
def fileItems (rel : List String) (cs : List (String × Entry)) : List WItem :=
  cs.filterMap (fun ne => if isWalkFile ne.2 then some (.copyf (rel ++ [ne.1]) ne.2) else none)

/-- Items of the symlinked-subdirectory loop for one visited directory. -/
def symdItems (rel : List String) (cs : List (String × Entry)) : List WItem :=
  cs.filterMap (fun ne =>
    match ne.2 with
    | .symlink t .toDir m => some (.symd (rel ++ [ne.1]) t m)
    | _ => none)

/-- All actions taken while the walk visits one directory, in source
order: `makedirs`, the files loop, then the symlinked-subdirectory loop. -/
def dirItems (rel : List String) (cs : List (String × Entry)) : List WItem :=
  .mkd rel :: (fileItems rel cs ++ symdItems rel cs)

/-- Shift an item one directory level down. -/
def prependItem (n : String) : WItem → WItem
  | .mkd rel => .mkd (n :: rel)
  | .copyf p e => .copyf (n :: p) e
  | .symd p t m => .symd (n :: p) t m

mutual

/-- Walk actions contributed by one child entry: only actual directories
are descended into (`os.walk(..., followlinks=False)`). -/
def entryWalk (n : String) : Entry → List WItem
  | .dir _ cs => (dirItems [] cs ++ childWalk cs).map (prependItem n)
  | _ => []

/-- Walk actions contributed by the recursive descent below one directory,
in `os.walk` top-down pre-order. -/
def childWalk : List (String × Entry) → List WItem
  | [] => []
  | (n, e) :: rest => entryWalk n e ++ childWalk rest

end

/-- The full pre-order action list of a recursive `copy_tree` walk rooted
at a directory with the given children. -/
def rootWalk (cs : List (String × Entry)) : List WItem :=
  dirItems [] cs ++ childWalk cs

mutual

/-- Well-formedness of an entry: directory listings have no duplicate
names, recursively (true of any real filesystem tree). -/
def wfE : Entry → Bool
  | .dir _ cs => wfC cs
  | _ => true

/-- Well-formedness of a children list. -/
def wfC : List (String × Entry) → Bool
  | [] => true
  | (n, e) :: rest => !(rest.any (fun ne => ne.1 = n)) && wfE e && wfC rest

end

/-- Model of `os.makedirs(path, exist_ok=True)` rooted inside the
destination world: missing components are created as empty directories, an
existing directory (or, for the final component, a symlink resolving to a
directory) is kept, and any other conflict raises.  A raised error leaves
the world unchanged (the first conflicting component is met before anything
is created below it). -/
def mkdirsE : Option Entry → List String → Except Unit Entry
  | cur, [] =>
    match cur with
    | none => .ok (.dir 0 [])
    | some (.dir m cs) => .ok (.dir m cs)
    | some (.symlink t .toDir m) => .ok (.symlink t .toDir m)
    | some _ => .error ()
  | cur, n :: p =>
    match cur with
    | none =>
      match mkdirsE none p with
      | .error u => .error u
      | .ok sub => .ok (.dir 0 [(n, sub)])
    | some (.dir m cs) =>
      match mkdirsE (lookupChild cs n) p with
      | .error u => .error u
      | .ok sub => .ok (.dir m (childSet cs n sub))
    | some _ => .error ()

/-- State threaded through the walk: the destination world, the relative
paths reported on the error channel by the per-file `except` handler
(pycp.py line 291), the temp-file registry, and the exception that aborted
the walk, if any. -/
structure WSt where
  fs : Option Entry
  errs : List (List String)
  reg : List String
  fatal : Option PyErr

/-- The `os.makedirs` call for a visited directory (pycp.py line 271). Its
failure is not caught: the walk aborts. -/
def mkdStep (st : WSt) (rel : List String) : WSt :=
  match mkdirsE st.fs rel with
  | .ok e => { st with fs := some e }
  | .error _ => { st with fatal := some .fileExists }

/-- One files-loop iteration (pycp.py lines 278-291): the skip check, then
`copy_file` with the per-file `except` handler that reports the failure and
continues.  For non-symlink sources `copy_file` first ensures the parent
directory (lines 152-154); the symlink branch returns before that point. -/
def copyfStep (cfg : CopyConfig) (tfail : Bool) (p : List String) (e : Entry)
    (st : WSt) : WSt :=
  let cur := lookupE st.fs p
  if should_skip_copy (existsE cur) cfg.noClobber cfg.updateOnly (entryMtime e) (optMtime cur) then
    st
  else if islinkE e && !cfg.followSymlinks then
    let r := copy_file cfg tfail e cur cfg.tmpName st.reg
    { st with fs := updAt st.fs p (fun _ => r.dst), reg := r.reg,
              errs := if r.err.isSome then st.errs ++ [p] else st.errs }
  else
    match mkdirsE st.fs p.dropLast with
    | .error _ => { st with errs := st.errs ++ [p] }
    | .ok e1 =>
      let r := copy_file cfg tfail e (lookupE (some e1) p) cfg.tmpName st.reg
      { st with fs := updAt (some e1) p (fun _ => r.dst), reg := r.reg,
                errs := if r.err.isSome then st.errs ++ [p] else st.errs }

/-- One symlinked-subdirectory replication (pycp.py lines 294-305): read
the target, remove an existing destination entry, create the link — with
every failure swallowed (`except Exception: pass`): removing a directory
raises and leaves it in place, a dangling link at the destination makes
`os.symlink` raise after the `exists` check passed it by.  The skip policy
is not consulted and nothing is ever reported. -/
def symdStep (p : List String) (t : String) (m : Int) (st : WSt) : WSt :=
  let cur := lookupE st.fs p
  if existsE cur then
    match cur with
    | some (.dir _ _) => st
    | _ => { st with fs := updAt st.fs p (fun _ => some (.symlink t .toDir m)) }
  else
    match cur with
    | none => { st with fs := updAt st.fs p (fun _ => some (.symlink t .toDir m)) }
    | some _ => st

/-- Dispatch one walk action; once a fatal exception is recorded the rest
of the walk does not run. -/
def stepItem (cfg : CopyConfig) (tfail : List String → Bool) (st : WSt) : WItem → WSt
  | it =>
    if st.fatal.isSome then st
    else
      match it with
      | .mkd rel => mkdStep st rel
      | .copyf p e => copyfStep cfg (tfail p) p e st
      | .symd p t m => symdStep p t m st

/-- Model of `copy_tree` (pycp.py lines 235-305) in the tool's default
`follow_symlinks = false` mode.  `srcName` is `basename(src_root)`;
`fs0` the destination world rooted at `dst_root`; `tfail` gives the
per-source-path transfer-failure oracle.  A directory root without
`recursive` raises `IsADirectoryError` before touching the filesystem; a
file or symlink root is a single guarded `copy_file` whose exception
propagates to the caller; a directory root folds the walk actions. -/
def copy_tree (cfg : CopyConfig) (tfail : List String → Bool) (srcName : String)
    (src : Entry) (fs0 : Option Entry) : WSt :=
  let st0 : WSt := ⟨fs0, [], [], none⟩
  -- line 244: os.path.exists(src_root) follows links
  if existsE (some src) = false then { st0 with fatal := some .fileNotFound }
  else
    match src with
    | .dir _ cs =>
      if !cfg.recursive then { st0 with fatal := some .isADirectory }
      else (rootWalk cs).foldl (stepItem cfg tfail) st0
    | e =>
      -- lines 247-261: single file or symlink root
      let p : List String := if isdirO fs0 then [srcName] else []
      let cur := lookupE fs0 p
      if should_skip_copy (existsE cur) cfg.noClobber cfg.updateOnly
          (entryMtime e) (optMtime cur) then st0
      else if islinkE e && !cfg.followSymlinks then
        let r := copy_file cfg (tfail p) e cur cfg.tmpName []
        { st0 with fs := updAt fs0 p (fun _ => r.dst), reg := r.reg, fatal := r.err }
      else
        -- the parent of the destination root itself is ambient: only a
        -- nonempty destination path has its parent inside the world
        if p = [] then
          let r := copy_file cfg (tfail p) e cur cfg.tmpName []
          { st0 with fs := updAt fs0 p (fun _ => r.dst), reg := r.reg, fatal := r.err }
        else
          match mkdirsE fs0 p.dropLast with
          | .error _ => { st0 with fatal := some .fileExists }
          | .ok e1 =>
            let r := copy_file cfg (tfail p) e (lookupE (some e1) p) cfg.tmpName []
            { st0 with fs := updAt (some e1) p (fun _ => r.dst), reg := r.reg,
                       fatal := r.err }

/-- Relative destination paths of the symlinked-subdirectory replications a
recursive walk of `src` will perform (the paths exempt from the skip
policy). -/
def symdPaths : Entry → List (List String)
  | .dir _ cs => (rootWalk cs).filterMap (fun it =>
      match it with
      | .symd p _ _ => some p
      | _ => none)
  | _ => []

/-- Lookup of a relative path inside the source directory's children. -/
def srcAt (cs : List (String × Entry)) (p : List String) : Option Entry :=
  lookupE (some (.dir 0 cs)) p

/-- A relative path at which the source tree has a directory (the root path
`[]` included). -/
def isSrcDirPath (cs : List (String × Entry)) (q : List String) : Prop :=
  ∃ dm dcs, srcAt cs q = some (.dir dm dcs)

/-- Soundness of one walk action with respect to the source tree it was
generated from: `makedirs` happens at source directory paths, file copies
and symlink replications at nonempty source leaf paths holding exactly the
entry carried by the action. -/
def itemOK (cs : List (String × Entry)) : WItem → Prop
  | .mkd rel => isSrcDirPath cs rel
  | .copyf p e =>
      p ≠ [] ∧ srcAt cs p = some e ∧ isWalkFile e = true ∧ isSrcDirPath cs p.dropLast
  | .symd p t m =>
      p ≠ [] ∧ srcAt cs p = some (.symlink t .toDir m) ∧ isSrcDirPath cs p.dropLast

/-- The walk invariant on the destination world when copying into an
initially empty destination: directory entries live only at source
directory paths, and source directory paths hold directories or nothing.
Keeps `makedirs` from ever failing and destination slots of leaf paths
free of directories. -/
def wfInv (cs : List (String × Entry)) (fs : Option Entry) : Prop :=
  (∀ q dm dcs, lookupE fs q = some (.dir dm dcs) → isSrcDirPath cs q)
  ∧ (∀ q, isSrcDirPath cs q →
      lookupE fs q = none ∨ ∃ dm dcs, lookupE fs q = some (.dir dm dcs))

/-- A baseline configuration for concrete instances: recursive, atomic,
link-preserving, no skip flags, all platform capabilities available, small
buffer and threshold so instances stay readable. -/
def cfgA : CopyConfig :=
  { recursive := true, preserve := false, followSymlinks := false,
    noClobber := false, updateOnly := false, atomic := true,
    bufsize := 4, sparseThreshold := 4,
    sendfileOk := true, seekOk := true, replaceOk := true, moveOk := true,
    tmpName := "tmp0" }

/-- The baseline with the sendfile fast path unavailable, so the transfer
runs through `write_buffered_with_sparse`. -/
def cfgNoSendfile : CopyConfig := { cfgA with sendfileOk := false }

/-- The baseline with `no_clobber` set. -/
def cfgNC : CopyConfig := { cfgA with noClobber := true }

/-- The baseline with `recursive` unset. -/
def cfgNR : CopyConfig := { cfgA with recursive := false }

/-- Concrete source tree for the no-clobber counterexample: a directory
holding one symlinked subdirectory named `s`. -/
def srcNCex : Entry := .dir 0 [("s", .symlink "t" .toDir 7)]

/-- Concrete pre-existing destination for the no-clobber counterexample: a
regular file named `s` with content `[1, 2]`. -/
def fs0NCex : Option Entry := some (.dir 0 [("s", .file [1, 2] 3)])

/-- Concrete three-file source tree used by walk-isolation instances. -/
def srcWalkEx : Entry := .dir 0
  [("a", .file [1] 0), ("b", .file [2] 0), ("sub", .dir 0 [("c", .file [3] 0)])]

/-- Failure oracle making exactly the copy of `b` fail. -/
def failB : List String → Bool := fun p => p = ["b"]

/-- A spec-side environment instance where every metadata operation
raises. -/
def metaAllFail : MetaEnv :=
  { copystatFollow := .error .permissionDenied,
    copystatPlain := .error .permissionDenied,
    statRes := .error .permissionDenied,
    chownFollow := .error .typeError,
    chownPlain := .error .permissionDenied,
    hasXattr := true,
    listxattrFollow := .error .typeError,
    listxattrPlain := .error .permissionDenied,
    getxattr := fun _ => .error .permissionDenied,
    setxattrFollow := fun _ _ => .error .typeError,
    setxattrPlain := fun _ _ => .error .permissionDenied }

end Pycp


namespace Pycp

section Claims

/-- Helper: a `try`/`except` whose handler always returns cleanly returns
cleanly. -/
theorem pyTry_ok {h : PyErr → Except PyErr Unit} (x : Except PyErr Unit)
    (hh : ∀ e, h e = Except.ok ()) : pyTry x h = Except.ok () := by
  cases x with
  | ok a => cases a; rfl
  | error e => exact hh e

/-- Helper: one attribute iteration never raises. -/
theorem xattrOne_ok (env : MetaEnv) (a : String) : xattrOne env a = Except.ok () :=
  pyTry_ok _ (fun _ => rfl)

/-- Helper: the attribute loop never raises. -/
theorem xattrLoop_ok (env : MetaEnv) : ∀ l, xattrLoop env l = Except.ok () := by
  intro l
  induction l with
  | nil => rfl
  | cons a rest ih =>
      show (do let _ ← xattrOne env a; xattrLoop env rest) = Except.ok ()
      rw [xattrOne_ok]
      exact ih

/-- Helper: `copy_xattrs` never raises. -/
theorem copy_xattrs_ok (env : MetaEnv) : copy_xattrs env = Except.ok () :=
  pyTry_ok _ (fun _ => rfl)

/-- C9: the metadata-sync operation (`preserve_metadata`, including its
xattr sub-step) never raises, whatever the outcomes of the underlying
`copystat`, `stat`, `chown` and xattr calls: every internal failure is
swallowed, so a metadata failure can never fail an otherwise successful
copy. -/
theorem C9_preserve_metadata_never_raises (env : MetaEnv) :
    preserve_metadata env = Except.ok () := by
  show (do
    let _ ← pyTry env.copystatFollow
      (fun _ => pyTry env.copystatPlain (fun _ => .ok ()))
    let _ ← pyTry
      (do
        let _st ← env.statRes
        pyTry env.chownFollow
          (fun e => if e = .typeError then env.chownPlain else .error e))
      (fun _ => .ok ())
    copy_xattrs env) = Except.ok ()
  rw [pyTry_ok _ (fun e => pyTry_ok _ (fun _ => rfl))]
  rw [pyTry_ok _ (fun _ => rfl)]
  exact copy_xattrs_ok env

/-- C3: the skip decision holds exactly when the destination exists and
either no-clobber is set, or update-only is set and both modification times
were read successfully with the source's not newer than the destination's
(ties skip).  In particular a failed modification-time read while
evaluating update-only means the copy is attempted. -/
theorem C3_should_skip_rules (dstExists noClobber updateOnly : Bool)
    (srcMtime dstMtime : Option Int) :
    should_skip_copy dstExists noClobber updateOnly srcMtime dstMtime = true ↔
      dstExists = true ∧
        (noClobber = true ∨
          (updateOnly = true ∧
            ∃ s d, srcMtime = some s ∧ dstMtime = some d ∧ s ≤ d)) := by
  cases dstExists <;> cases noClobber <;> cases updateOnly <;>
    cases srcMtime <;> cases dstMtime <;>
    simp [should_skip_copy]

/-- C1: evaluation of the code at a failing input.  With the sendfile fast
path unavailable, an atomic `copy_file` of a 4-byte all-zero regular file
(buffer size and sparse threshold 4, scale model of the defaults) produces
a destination of content `[]` — length 0 instead of the source's length 4.
The trailing hole-creating seek is never materialised by a final write or
truncate, so the destination is not byte-for-byte equal to the source. -/
theorem C1_trailing_hole_truncates :
    (copy_file cfgNoSendfile false (.file (List.replicate 4 0) 5) none "t0" []).dst
        = some (.file [] 0)
      ∧ (List.replicate 4 (0 : Nat)).length = 4 := ⟨rfl, rfl⟩

/-- C2: evaluation of the code at a failing input.  A source consisting
entirely of zero bytes, of length 8 ≥ the sparse threshold 4, runs through
`write_buffered_with_sparse` (buffer size 4): both chunks take the
hole-producing seek branch, no write is ever issued, and the destination
ends with length 0, not the source's length 8. -/
theorem C2_all_zero_file_truncated_to_empty :
    write_buffered_with_sparse (List.replicate 8 0) 4 4 true = []
      ∧ (List.replicate 8 (0 : Nat)).length = 8 := ⟨rfl, rfl⟩

/-- C6: for every existing directory source, `copy_tree` with
`recursive = false` raises `IsADirectory` and performs no filesystem
writes: the destination world is returned exactly as it was, no error
reports, no registry entries. -/
theorem C6_nonrecursive_dir_raises (cfg : CopyConfig) (tfail : List String → Bool)
    (name : String) (m : Int) (cs : List (String × Entry)) (fs0 : Option Entry)
    (hr : cfg.recursive = false) :
    copy_tree cfg tfail name (.dir m cs) fs0 = ⟨fs0, [], [], some .isADirectory⟩ := by
  simp [copy_tree, existsE, hr]

/-- C7 (amended): for every source symlink whose target exists, with
`follow_symlinks` unset and a destination slot that is empty or holds an
existing non-directory entry, `copy_file` replaces the destination with a
new symlink carrying the same target string — not a copy of the target's
content — and never touches the temp-file registry: the temp-file/atomic
logic is bypassed entirely. -/
theorem C7_symlink_replication (cfg : CopyConfig) (tfail : Bool)
    (t : String) (k : LinkKind) (m : Int) (dst0 : Option Entry)
    (tmp : String) (reg0 : List String)
    (hk : k ≠ LinkKind.broken) (hf : cfg.followSymlinks = false)
    (hdst : dst0 = none ∨ (∃ c mm, dst0 = some (.file c mm)) ∨
      (∃ t2 k2 m2, k2 ≠ LinkKind.broken ∧ dst0 = some (.symlink t2 k2 m2))) :
    copy_file cfg tfail (.symlink t k m) dst0 tmp reg0
      = ⟨some (.symlink t k m), reg0, false, none⟩ := by
  cases k with
  | broken => exact absurd rfl hk
  | toFile =>
    rcases hdst with h | ⟨c, mm, h⟩ | ⟨t2, k2, m2, hk2, h⟩
    · subst h; unfold copy_file; rw [hf]; rfl
    · subst h; unfold copy_file; rw [hf]; rfl
    · subst h
      cases k2 with
      | broken => exact absurd rfl hk2
      | toFile => unfold copy_file; rw [hf]; rfl
      | toDir => unfold copy_file; rw [hf]; rfl
  | toDir =>
    rcases hdst with h | ⟨c, mm, h⟩ | ⟨t2, k2, m2, hk2, h⟩
    · subst h; unfold copy_file; rw [hf]; rfl
    · subst h; unfold copy_file; rw [hf]; rfl
    · subst h
      cases k2 with
      | broken => exact absurd rfl hk2
      | toFile => unfold copy_file; rw [hf]; rfl
      | toDir => unfold copy_file; rw [hf]; rfl

/-- C8: in atomic mode, for every `copy_file` of a regular file onto a
non-directory destination slot: a raised transfer deletes the temp file,
removes it from the registry and re-raises, leaving the destination
untouched; a successful transfer renames the temp file onto the
destination and deregisters; a failed rename falls back to a move; and on
every outcome — including the move itself failing — the temp path is
deregistered, so a fresh temp path never survives in the registry past the
call. -/
theorem C8_atomic_temp_registry (cfg : CopyConfig) (tfail : Bool) (c : Bytes) (m : Int)
    (dst0 : Option Entry) (tmp : String) (reg0 : List String)
    (hat : cfg.atomic = true) (hreg : tmp ∉ reg0) (hnd : isRealDirO dst0 = false) :
    tmp ∉ (copy_file cfg tfail (.file c m) dst0 tmp reg0).reg
    ∧ (tfail = true →
        copy_file cfg tfail (.file c m) dst0 tmp reg0
          = ⟨dst0, reg0, false, some .copyFailed⟩)
    ∧ (tfail = false → cfg.replaceOk = true →
        copy_file cfg tfail (.file c m) dst0 tmp reg0
          = ⟨some (.file (transferContent cfg c) 0), reg0, false, none⟩)
    ∧ (tfail = false → cfg.replaceOk = false → cfg.moveOk = true →
        copy_file cfg tfail (.file c m) dst0 tmp reg0
          = ⟨some (.file (transferContent cfg c) 0), reg0, false, none⟩)
    ∧ (tfail = false → cfg.replaceOk = false → cfg.moveOk = false →
        copy_file cfg tfail (.file c m) dst0 tmp reg0
          = ⟨dst0, reg0, true, some .copyFailed⟩) := by
  have herase : (tmp :: reg0).erase tmp = reg0 := List.erase_cons_head tmp reg0
  have hcf : ∀ (x : Bool), copy_file cfg x (.file c m) dst0 tmp reg0 =
      (if x then ⟨dst0, reg0, false, some .copyFailed⟩
       else if cfg.replaceOk then
         ⟨some (.file (transferContent cfg c) 0), reg0, false, none⟩
       else if cfg.moveOk then
         ⟨some (.file (transferContent cfg c) 0), reg0, false, none⟩
       else ⟨dst0, reg0, true, some .copyFailed⟩) := by
    intro x
    show (if existsE (some (.file c m)) = false then _ else _) = _
    simp only [existsE, Bool.true_eq_false, if_false]
    show (if cfg.atomic then _ else _) = _
    rw [hat]
    simp only [if_true, herase, hnd, Bool.not_false, Bool.and_true, contentOf]
    cases x with
    | true => simp
    | false =>
      simp only [if_false, Bool.false_eq_true]
      cases hro : cfg.replaceOk with
      | true => simp [contentOf]
      | false =>
        simp only [if_false, Bool.false_eq_true]
        cases hmo : cfg.moveOk with
        | true =>
          simp only [if_true, contentOf]
          cases dst0 with
          | none => rfl
          | some e =>
            cases e with
            | file _ _ => rfl
            | symlink _ _ _ => rfl
            | dir _ _ => exact absurd hnd (by simp [isRealDirO])
        | false => simp
  refine ⟨?_, ?_, ?_, ?_, ?_⟩
  · rw [hcf]
    cases tfail <;> cases hro : cfg.replaceOk <;> cases hmo : cfg.moveOk <;>
      simp [hro, hmo] <;> exact hreg
  · intro h; subst h; simp [hcf]
  · intro h hro; subst h; simp [hcf, hro]
  · intro h hro hmo; subst h; simp [hcf, hro, hmo]
  · intro h hro hmo; subst h; simp [hcf, hro, hmo]

/-- C10: during a recursive walk with `follow_symlinks` unset, the
replication of a symlinked subdirectory at mirrored path `p` removes a
pre-existing regular file there and installs the symlink without
consulting the skip policy (the configuration flags are arbitrary, the
error log and fatal state untouched); when the pre-existing entry is a
directory the internal `os.remove` failure is silently swallowed (the
state is returned unchanged — nothing reported, nothing aborted), likewise
when a dangling link occupies the path and `os.symlink` raises; and the
walk emits exactly such a replication item for every symlinked
subdirectory entry of a visited directory. -/
theorem C10_symdir_replication (cfg : CopyConfig) (tfail : List String → Bool)
    (st : WSt) (p : List String) (t : String) (m : Int)
    (hf : st.fatal = none) :
    ((∃ c mm, lookupE st.fs p = some (.file c mm)) →
        stepItem cfg tfail st (.symd p t m)
          = { st with fs := updAt st.fs p (fun _ => some (.symlink t .toDir m)) })
    ∧ (∀ dm dcs, lookupE st.fs p = some (.dir dm dcs) →
        stepItem cfg tfail st (.symd p t m) = st)
    ∧ (∀ t2 m2, lookupE st.fs p = some (.symlink t2 .broken m2) →
        stepItem cfg tfail st (.symd p t m) = st)
    ∧ (∀ rel cs n, (n, Entry.symlink t .toDir m) ∈ cs →
        WItem.symd (rel ++ [n]) t m ∈ dirItems rel cs) := by
  refine ⟨?_, ?_, ?_, ?_⟩
  · rintro ⟨c, mm, hc⟩
    simp [stepItem, hf, symdStep, hc, existsE]
  · intro dm dcs hc
    simp [stepItem, hf, symdStep, hc, existsE]
  · intro t2 m2 hc
    simp [stepItem, hf, symdStep, hc, existsE]
  · intro rel cs n hmem
    have hs : WItem.symd (rel ++ [n]) t m ∈ symdItems rel cs := by
      simp only [symdItems, List.mem_filterMap]
      exact ⟨(n, Entry.symlink t LinkKind.toDir m), hmem, rfl⟩
    exact List.mem_cons.mpr (Or.inr (List.mem_append.mpr (Or.inr hs)))

/-- Witness for C6 at a concrete directory source and destination. -/
theorem C6_nonrecursive_dir_raises_witness :
    cfgNR.recursive = false
    ∧ copy_tree cfgNR (fun _ => false) "a" (.dir 0 [("s", .symlink "t" .toDir 7)]) fs0NCex
        = ⟨fs0NCex, [], [], some .isADirectory⟩ :=
  ⟨rfl, C6_nonrecursive_dir_raises cfgNR (fun _ => false) "a" 0
    [("s", .symlink "t" .toDir 7)] fs0NCex rfl⟩

/-- Witness for C7 at a concrete symlink source and file destination. -/
theorem C7_symlink_replication_witness :
    LinkKind.toFile ≠ LinkKind.broken
    ∧ cfgA.followSymlinks = false
    ∧ copy_file cfgA false (.symlink "x" .toFile 2) (some (.file [5] 1)) "t0" []
        = ⟨some (.symlink "x" .toFile 2), [], false, none⟩ :=
  ⟨by decide, rfl,
    C7_symlink_replication cfgA false "x" .toFile 2 (some (.file [5] 1)) "t0" []
      (by decide) rfl (Or.inr (Or.inl ⟨[5], 1, rfl⟩))⟩

/-- Witness for C8 at a concrete file copy with an occupied registry. -/
theorem C8_atomic_temp_registry_witness :
    cfgA.atomic = true
    ∧ ("t0" : String) ∉ (["u"] : List String)
    ∧ isRealDirO none = false
    ∧ ("t0" ∉ (copy_file cfgA false (.file [1, 2] 3) none "t0" ["u"]).reg
      ∧ (false = true →
          copy_file cfgA false (.file [1, 2] 3) none "t0" ["u"]
            = ⟨none, ["u"], false, some .copyFailed⟩)
      ∧ (false = false → cfgA.replaceOk = true →
          copy_file cfgA false (.file [1, 2] 3) none "t0" ["u"]
            = ⟨some (.file (transferContent cfgA [1, 2]) 0), ["u"], false, none⟩)
      ∧ (false = false → cfgA.replaceOk = false → cfgA.moveOk = true →
          copy_file cfgA false (.file [1, 2] 3) none "t0" ["u"]
            = ⟨some (.file (transferContent cfgA [1, 2]) 0), ["u"], false, none⟩)
      ∧ (false = false → cfgA.replaceOk = false → cfgA.moveOk = false →
          copy_file cfgA false (.file [1, 2] 3) none "t0" ["u"]
            = ⟨none, ["u"], true, some .copyFailed⟩)) :=
  ⟨rfl, by decide, rfl,
    C8_atomic_temp_registry cfgA false [1, 2] 3 none "t0" ["u"] rfl (by decide) rfl⟩

/-- Witness for C10 at a concrete state holding a file where the source has
a symlinked subdirectory, under no-clobber. -/
theorem C10_symdir_replication_witness :
    (⟨some (.dir 0 [("s", .file [1] 2)]), [], [], none⟩ : WSt).fatal = none
    ∧ stepItem cfgNC (fun _ => false)
        ⟨some (.dir 0 [("s", .file [1] 2)]), [], [], none⟩ (.symd ["s"] "t" 7)
      = { (⟨some (.dir 0 [("s", .file [1] 2)]), [], [], none⟩ : WSt) with
            fs := updAt (some (.dir 0 [("s", .file [1] 2)])) ["s"]
                    (fun _ => some (.symlink "t" .toDir 7)) } :=
  ⟨rfl,
    (C10_symdir_replication cfgNC (fun _ => false)
      ⟨some (.dir 0 [("s", .file [1] 2)]), [], [], none⟩ ["s"] "t" 7 rfl).1
      ⟨[1], 2, rfl⟩⟩

/-- Counterexample to C7 as stated: a dangling symlink is a symlink
source, yet `copy_file` with `follow_symlinks` unset raises
`FileNotFoundError` (the initial `src_path.exists()` check follows links)
and leaves the existing destination entry untouched instead of replacing
it with a new symlink. -/
theorem C7_dangling_symlink_cex :
    (copy_file cfgA false (.symlink "x" .broken 0) (some (.file [5] 1)) "t0" []).err
        = some .fileNotFound
    ∧ (copy_file cfgA false (.symlink "x" .broken 0) (some (.file [5] 1)) "t0" []).dst
        = some (.file [5] 1)
    ∧ (some (Entry.file [5] 1) : Option Entry) ≠ some (.symlink "x" .broken 0) :=
  ⟨rfl, rfl, by simp⟩

/-- Helper: looking up the name just set finds the new entry. -/
theorem lookupChild_childSet_self (cs : List (String × Entry)) (n : String) (e : Entry) :
    lookupChild (childSet cs n e) n = some e := by
  induction cs with
  | nil => simp [childSet, lookupChild]
  | cons kv rest ih =>
    obtain ⟨k, v⟩ := kv
    by_cases hk : k = n
    · subst hk; simp [childSet, lookupChild]
    · simp [childSet, lookupChild, hk, ih]

/-- Helper: setting one name leaves lookups of other names unchanged. -/
theorem lookupChild_childSet_ne (cs : List (String × Entry)) (n k : String) (e : Entry)
    (h : k ≠ n) : lookupChild (childSet cs n e) k = lookupChild cs k := by
  induction cs with
  | nil => simp [childSet, lookupChild, Ne.symm h]
  | cons kv rest ih =>
    obtain ⟨k2, v⟩ := kv
    by_cases hk : k2 = n
    · subst hk
      have : k2 ≠ k := fun hh => h hh.symm
      simp [childSet, lookupChild, this]
    · by_cases hk2 : k2 = k
      · subst hk2; simp [childSet, lookupChild, hk]
      · simp [childSet, lookupChild, hk, hk2, ih]

/-- Helper: erasing one name leaves lookups of other names unchanged. -/
theorem lookupChild_childErase_ne (cs : List (String × Entry)) (n k : String)
    (h : k ≠ n) : lookupChild (childErase cs n) k = lookupChild cs k := by
  induction cs with
  | nil => simp [childErase, lookupChild]
  | cons kv rest ih =>
    obtain ⟨k2, v⟩ := kv
    by_cases hk : k2 = n
    · subst hk
      have : k2 ≠ k := fun hh => h hh.symm
      simp [childErase, lookupChild, this]
    · by_cases hk2 : k2 = k
      · subst hk2; simp [childErase, lookupChild, hk]
      · simp [childErase, lookupChild, hk, hk2, ih]

/-- Helper: a `childUpd` of one name leaves lookups of other names
unchanged. -/
theorem lookupChild_childUpd_ne (cs : List (String × Entry)) (n k : String)
    (r : Option Entry) (h : k ≠ n) :
    lookupChild (childUpd cs n r) k = lookupChild cs k := by
  cases r with
  | none => exact lookupChild_childErase_ne cs n k h
  | some e => exact lookupChild_childSet_ne cs n k e h

/-- Helper: a successful lookup survives appending entries on the right. -/
theorem lookupChild_append_of_some (cs l : List (String × Entry)) (k : String)
    (v : Entry) (h : lookupChild cs k = some v) :
    lookupChild (cs ++ l) k = some v := by
  induction cs with
  | nil => simp [lookupChild] at h
  | cons kv rest ih =>
    obtain ⟨k2, v2⟩ := kv
    by_cases hk : k2 = k
    · subst hk; simp [lookupChild] at h ⊢; exact h
    · simp [lookupChild, hk] at h ⊢; exact ih h

/-- Helper: a nonexistent destination slot is in particular not a real
directory (it is absent or a dangling symlink). -/
theorem isRealDirO_of_not_exists (x : Option Entry) (h : existsE x = false) :
    isRealDirO x = false := by
  cases x with
  | none => rfl
  | some e =>
    cases e with
    | file _ _ => exact absurd h (by simp [existsE])
    | dir _ _ => exact absurd h (by simp [existsE])
    | symlink t k m =>
      cases k with
      | toFile => exact absurd h (by simp [existsE])
      | toDir => exact absurd h (by simp [existsE])
      | broken => rfl

/-- Helper: with no-clobber set the skip decision is exactly destination
existence. -/
theorem should_skip_noclobber (ex u : Bool) (sm dm : Option Int) :
    should_skip_copy ex true u sm dm = ex := by
  cases ex <;> rfl

/-- Frame property of `updAt`: a regular file stored at a path other than
the updated one keeps its entry, provided the updated path does not hold a
real directory (the situation of every non-directory write the engine
performs). -/
theorem updAt_preserves_file :
    ∀ (p : List String) (fs : Option Entry) (f : Option Entry → Option Entry)
      (q : List String) (c : Bytes) (m : Int),
      lookupE fs q = some (.file c m) → q ≠ p →
      isRealDirO (lookupE fs p) = false →
      lookupE (updAt fs p f) q = some (.file c m) := by
  intro p
  induction p with
  | nil =>
    intro fs f q c m hq hne hnd
    exfalso
    cases q with
    | nil => exact hne rfl
    | cons k q' =>
      cases fs with
      | none => simp [lookupE] at hq
      | some e =>
        cases e with
        | file _ _ => simp [lookupE] at hq
        | symlink _ _ _ => simp [lookupE] at hq
        | dir _ _ => simp [lookupE, isRealDirO] at hnd
  | cons n p' ih =>
    intro fs f q c m hq hne hnd
    cases fs with
    | none => simpa [updAt] using hq
    | some e =>
      cases e with
      | file _ _ => simpa [updAt] using hq
      | symlink _ _ _ => simpa [updAt] using hq
      | dir dm cs =>
        cases q with
        | nil => simp [lookupE] at hq
        | cons k q' =>
          by_cases hk : k = n
          · subst hk
            have hq' : lookupE (lookupChild cs k) q' = some (.file c m) := hq
            have hne' : q' ≠ p' := fun hh => hne (by rw [hh])
            have hnd' : isRealDirO (lookupE (lookupChild cs k) p') = false := hnd
            have hih := ih (lookupChild cs k) f q' c m hq' hne' hnd'
            cases hupd : updAt (lookupChild cs k) p' f with
            | none =>
              rw [hupd] at hih
              exfalso
              cases q' <;> simp [lookupE] at hih
            | some e2 =>
              rw [hupd] at hih
              show lookupE (lookupChild (childUpd cs k (updAt (lookupChild cs k) p' f)) k) q'
                  = some (.file c m)
              rw [hupd]
              show lookupE (lookupChild (childSet cs k e2) k) q' = some (.file c m)
              rw [lookupChild_childSet_self]
              exact hih
          · show lookupE (lookupChild (childUpd cs n (updAt (lookupChild cs n) p' f)) k) q'
                = some (.file c m)
            rw [lookupChild_childUpd_ne cs n k _ hk]
            exact hq

/-- Frame property of `mkdirsE`: a successful `makedirs` never disturbs an
existing regular file entry. -/
theorem mkdirsE_preserves_file :
    ∀ (d : List String) (fs : Option Entry) (e' : Entry) (q : List String)
      (c : Bytes) (m : Int),
      mkdirsE fs d = .ok e' → lookupE fs q = some (.file c m) →
      lookupE (some e') q = some (.file c m) := by
  intro d
  induction d with
  | nil =>
    intro fs e' q c m hmk hq
    cases fs with
    | none => cases q <;> simp [lookupE] at hq
    | some e =>
      cases e with
      | file c2 m2 => simp [mkdirsE] at hmk
      | dir dm cs =>
        have : e' = .dir dm cs := by simpa [mkdirsE] using hmk.symm
        rw [this]; exact hq
      | symlink t k m2 =>
        cases k with
        | toDir =>
          have : e' = .symlink t .toDir m2 := by simpa [mkdirsE] using hmk.symm
          rw [this]; exact hq
        | toFile => simp [mkdirsE] at hmk
        | broken => simp [mkdirsE] at hmk
  | cons n d' ih =>
    intro fs e' q c m hmk hq
    cases fs with
    | none => cases q <;> simp [lookupE] at hq
    | some e =>
      cases e with
      | file _ _ => simp [mkdirsE] at hmk
      | symlink _ _ _ => simp [mkdirsE] at hmk
      | dir dm cs =>
        cases hsub : mkdirsE (lookupChild cs n) d' with
        | error u =>
          simp only [mkdirsE, hsub] at hmk
          exact Except.noConfusion hmk
        | ok sub =>
          simp only [mkdirsE, hsub] at hmk
          have he' : e' = .dir dm (childSet cs n sub) := by
            cases hmk; rfl
          subst he'
          cases q with
          | nil => simp [lookupE] at hq
          | cons k q' =>
            by_cases hk : k = n
            · subst hk
              show lookupE (lookupChild (childSet cs k sub) k) q' = some (.file c m)
              rw [lookupChild_childSet_self]
              exact ih (lookupChild cs k) sub q' c m hsub hq
            · show lookupE (lookupChild (childSet cs n sub) k) q' = some (.file c m)
              rw [lookupChild_childSet_ne cs n k sub hk]
              exact hq

/-- After a successful `makedirs` of a directory path, the slot directly
under it holds what it held before, or nothing (a freshly created directory
is empty). -/
theorem mkdirsE_slot :
    ∀ (d : List String) (fs : Option Entry) (e' : Entry) (n : String),
      mkdirsE fs d = .ok e' →
      lookupE (some e') (d ++ [n]) = lookupE fs (d ++ [n])
        ∨ lookupE (some e') (d ++ [n]) = none := by
  intro d
  induction d with
  | nil =>
    intro fs e' n hmk
    cases fs with
    | none =>
      right
      have : e' = .dir 0 [] := by simpa [mkdirsE] using hmk.symm
      subst this
      simp [lookupE, lookupChild]
    | some e =>
      cases e with
      | file _ _ => simp [mkdirsE] at hmk
      | dir dm cs =>
        left
        have : e' = .dir dm cs := by simpa [mkdirsE] using hmk.symm
        subst this; rfl
      | symlink t k m =>
        cases k with
        | toDir =>
          left
          have : e' = .symlink t .toDir m := by simpa [mkdirsE] using hmk.symm
          subst this; rfl
        | toFile => simp [mkdirsE] at hmk
        | broken => simp [mkdirsE] at hmk
  | cons k d' ih =>
    intro fs e' n hmk
    cases fs with
    | none =>
      cases hsub : mkdirsE none d' with
      | error u =>
        simp only [mkdirsE, hsub] at hmk
        exact Except.noConfusion hmk
      | ok sub =>
        simp only [mkdirsE, hsub] at hmk
        have he' : e' = .dir 0 [(k, sub)] := by cases hmk; rfl
        subst he'
        have : lookupE (some (Entry.dir 0 [(k, sub)])) ((k :: d') ++ [n])
            = lookupE (some sub) (d' ++ [n]) := by
          simp [lookupE, lookupChild]
        rw [this]
        rcases ih none sub n hsub with h | h
        · right
          rw [h]
          cases d' <;> simp [lookupE]
        · right; exact h
    | some e =>
      cases e with
      | file _ _ => simp [mkdirsE] at hmk
      | symlink _ _ _ => simp [mkdirsE] at hmk
      | dir dm cs =>
        cases hsub : mkdirsE (lookupChild cs k) d' with
        | error u =>
          simp only [mkdirsE, hsub] at hmk
          exact Except.noConfusion hmk
        | ok sub =>
          simp only [mkdirsE, hsub] at hmk
          have he' : e' = .dir dm (childSet cs k sub) := by cases hmk; rfl
          subst he'
          have hl : lookupE (some (Entry.dir dm (childSet cs k sub))) ((k :: d') ++ [n])
              = lookupE (some sub) (d' ++ [n]) := by
            simp [lookupE, lookupChild_childSet_self]
          have hr : lookupE (some (Entry.dir dm cs)) ((k :: d') ++ [n])
              = lookupE (lookupChild cs k) (d' ++ [n]) := by
            simp [lookupE]
          rw [hl, hr]
          exact ih (lookupChild cs k) sub n hsub

/-- One walk action under no-clobber preserves every regular file already
present in the destination, as long as the action is not a
symlinked-subdirectory replication aimed exactly at that file's path. -/
theorem step_preserves_file (cfg : CopyConfig) (tfail : List String → Bool)
    (st : WSt) (it : WItem) (q : List String) (c : Bytes) (m : Int)
    (hnc : cfg.noClobber = true)
    (hq : lookupE st.fs q = some (.file c m))
    (hsd : ∀ p t mm, it = .symd p t mm → p ≠ q) :
    lookupE (stepItem cfg tfail st it).fs q = some (.file c m) := by
  by_cases hft : st.fatal.isSome
  · simpa [stepItem, hft] using hq
  · have hq_ne : ∀ (p : List String), existsE (lookupE st.fs p) = false → q ≠ p := by
      intro p hex hqp
      subst hqp
      rw [hq] at hex
      simp [existsE] at hex
    cases it with
    | mkd rel =>
      simp only [stepItem, hft, if_false, mkdStep]
      cases hmk : mkdirsE st.fs rel with
      | error u => exact hq
      | ok e' => exact mkdirsE_preserves_file rel st.fs e' q c m hmk hq
    | copyf p e =>
      simp only [stepItem, hft, if_false, copyfStep]
      rw [hnc, should_skip_noclobber]
      cases hex : existsE (lookupE st.fs p) with
      | true => simpa using hq
      | false =>
        have hnd := isRealDirO_of_not_exists _ hex
        have hne := hq_ne p hex
        simp only [Bool.false_eq_true, if_false]
        cases hlk : islinkE e && !cfg.followSymlinks with
        | true =>
          simp only [if_true]
          exact updAt_preserves_file p st.fs _ q c m hq hne hnd
        | false =>
          simp only [Bool.false_eq_true, if_false]
          cases hmk : mkdirsE st.fs p.dropLast with
          | error u => exact hq
          | ok e1 =>
            have hq1 := mkdirsE_preserves_file p.dropLast st.fs e1 q c m hmk hq
            apply updAt_preserves_file p (some e1) _ q c m hq1 hne
            by_cases hp : p = []
            · subst hp
              exfalso
              cases hfs : st.fs with
              | none =>
                rw [hfs] at hq
                cases q <;> simp [lookupE] at hq
              | some e0 =>
                cases e0 with
                | file _ _ => rw [hfs] at hex; simp [lookupE, existsE] at hex
                | dir _ _ => rw [hfs] at hex; simp [lookupE, existsE] at hex
                | symlink t2 k2 m2 =>
                  cases k2 with
                  | toFile => rw [hfs] at hex; simp [lookupE, existsE] at hex
                  | toDir => rw [hfs] at hex; simp [lookupE, existsE] at hex
                  | broken => rw [hfs] at hmk; simp [mkdirsE] at hmk
            · have hsplit : p.dropLast ++ [p.getLast hp] = p :=
                List.dropLast_append_getLast hp
              rcases mkdirsE_slot p.dropLast st.fs e1 (p.getLast hp) hmk with h | h
              · rw [hsplit] at h
                rw [h]
                exact hnd
              · rw [hsplit] at h
                rw [h]
                rfl
    | symd p t mm =>
      have hne : p ≠ q := hsd p t mm rfl
      simp only [stepItem, hft, if_false, symdStep]
      cases hex : existsE (lookupE st.fs p) with
      | true =>
        cases hcur : lookupE st.fs p with
        | none => rw [hcur] at hex; simp [existsE] at hex
        | some e0 =>
          cases e0 with
          | dir _ _ => simpa using hq
          | file c2 m2 =>
            simp only
            exact updAt_preserves_file p st.fs _ q c m hq (fun hh => hne hh.symm)
              (by rw [hcur]; rfl)
          | symlink t2 k2 m2 =>
            simp only
            exact updAt_preserves_file p st.fs _ q c m hq (fun hh => hne hh.symm)
              (by rw [hcur]; rfl)
      | false =>
        cases hcur : lookupE st.fs p with
        | none =>
          simp only
          exact updAt_preserves_file p st.fs _ q c m hq (fun hh => hne hh.symm)
            (by rw [hcur]; rfl)
        | some e0 => simpa using hq

/-- Folding walk actions under no-clobber preserves every regular file
already present, as long as no symlinked-subdirectory replication in the
list targets that file's path. -/
theorem fold_preserves_file (cfg : CopyConfig) (tfail : List String → Bool)
    (q : List String) (c : Bytes) (m : Int) (hnc : cfg.noClobber = true) :
    ∀ (items : List WItem) (st : WSt),
      lookupE st.fs q = some (.file c m) →
      (∀ p t mm, WItem.symd p t mm ∈ items → p ≠ q) →
      lookupE (items.foldl (stepItem cfg tfail) st).fs q = some (.file c m) := by
  intro items
  induction items with
  | nil => intro st hq _; exact hq
  | cons it rest ih =>
    intro st hq hs
    show lookupE (rest.foldl (stepItem cfg tfail) (stepItem cfg tfail st it)).fs q
        = some (.file c m)
    apply ih
    · exact step_preserves_file cfg tfail st it q c m hnc hq
        (fun p t mm hh => hs p t mm (hh ▸ List.mem_cons_self it rest))
    · intro p t mm hmem
      exact hs p t mm (List.mem_cons_of_mem it hmem)

/-- C4 (amended): with no-clobber set (and the tool's default
`follow_symlinks = false`), every regular file present in the destination
before a `copy_tree` call keeps exactly its entry — content and timestamp —
after the call, provided its path is not the mirrored path of a symlinked
source subdirectory (those replications bypass the skip policy and may
replace it). -/
theorem C4_noclobber_frame (cfg : CopyConfig) (tfail : List String → Bool)
    (name : String) (src : Entry) (fs0 : Option Entry) (q : List String)
    (c : Bytes) (m : Int)
    (hnc : cfg.noClobber = true) (hfw : cfg.followSymlinks = false)
    (hq : lookupE fs0 q = some (.file c m))
    (hsd : q ∉ symdPaths src) :
    lookupE (copy_tree cfg tfail name src fs0).fs q = some (.file c m) := by
  have hq_ne : ∀ (p : List String), existsE (lookupE fs0 p) = false → q ≠ p := by
    intro p hex hqp
    subst hqp
    rw [hq] at hex
    simp [existsE] at hex
  cases src with
  | dir dm cs =>
    have hsymd : ∀ p t mm, WItem.symd p t mm ∈ rootWalk cs → p ≠ q := by
      intro p t mm hmem hpq
      apply hsd
      subst hpq
      exact List.mem_filterMap.mpr ⟨WItem.symd p t mm, hmem, rfl⟩
    simp only [copy_tree, existsE, Bool.true_eq_false, if_false]
    cases hrec : cfg.recursive with
    | false => exact hq
    | true =>
      simp only [Bool.not_true, Bool.false_eq_true, if_false]
      exact fold_preserves_file cfg tfail q c m hnc (rootWalk cs) ⟨fs0, [], [], none⟩ hq hsymd
  | file c2 m2 =>
    have hx : (existsE (some (Entry.file c2 m2)) = false) = False := by
      simp [existsE]
    simp only [copy_tree, hx, if_false]
    rw [hnc, should_skip_noclobber]
    cases hex : existsE (lookupE fs0 (if isdirO fs0 then [name] else [])) with
    | true => simpa using hq
    | false =>
      have hne := hq_ne _ hex
      have hnd := isRealDirO_of_not_exists _ hex
      have hlk1 : (islinkE (Entry.file c2 m2) && !cfg.followSymlinks) = false := by
        simp [islinkE]
      have hlk2 : (islinkE (Entry.file c2 m2) = true ∧ cfg.followSymlinks = false) = False := by
        simp [islinkE]
      simp only [Bool.false_eq_true, if_false, hlk1, hlk2]
      by_cases hp : (if isdirO fs0 then [name] else []) = ([] : List String)
      · rw [if_pos hp]
        exact updAt_preserves_file _ fs0 _ q c m hq hne hnd
      · rw [if_neg hp]
        cases hmk : mkdirsE fs0 (if isdirO fs0 then [name] else []).dropLast with
        | error u => exact hq
        | ok e1 =>
          have hq1 := mkdirsE_preserves_file _ fs0 e1 q c m hmk hq
          apply updAt_preserves_file _ (some e1) _ q c m hq1 hne
          have hsplit : (if isdirO fs0 then [name] else []).dropLast
              ++ [(if isdirO fs0 then [name] else []).getLast hp]
              = (if isdirO fs0 then [name] else []) :=
            List.dropLast_append_getLast hp
          rcases mkdirsE_slot (if isdirO fs0 then [name] else []).dropLast fs0 e1
              ((if isdirO fs0 then [name] else []).getLast hp) hmk with h | h
          · rw [hsplit] at h
            rw [h]
            exact hnd
          · rw [hsplit] at h
            rw [h]
            rfl
  | symlink t k mk =>
    cases k with
    | broken => simpa [copy_tree, existsE] using hq
    | toFile =>
      have hx : (existsE (some (Entry.symlink t .toFile mk)) = false) = False := by
        simp [existsE]
      have hlk1 : (islinkE (Entry.symlink t .toFile mk) && !cfg.followSymlinks) = true := by
        simp [islinkE, hfw]
      have hlk2 : (islinkE (Entry.symlink t .toFile mk) = true ∧ cfg.followSymlinks = false)
          = True := by
        simp [islinkE, hfw]
      simp only [copy_tree, hx, if_false]
      rw [hnc, should_skip_noclobber]
      cases hex : existsE (lookupE fs0 (if isdirO fs0 then [name] else [])) with
      | true => simpa using hq
      | false =>
        simp only [Bool.false_eq_true, if_false, hlk1, hlk2, eq_self_iff_true, if_true]
        exact updAt_preserves_file _ fs0 _ q c m hq (hq_ne _ hex)
          (isRealDirO_of_not_exists _ hex)
    | toDir =>
      have hx : (existsE (some (Entry.symlink t .toDir mk)) = false) = False := by
        simp [existsE]
      have hlk1 : (islinkE (Entry.symlink t .toDir mk) && !cfg.followSymlinks) = true := by
        simp [islinkE, hfw]
      have hlk2 : (islinkE (Entry.symlink t .toDir mk) = true ∧ cfg.followSymlinks = false)
          = True := by
        simp [islinkE, hfw]
      simp only [copy_tree, hx, if_false]
      rw [hnc, should_skip_noclobber]
      cases hex : existsE (lookupE fs0 (if isdirO fs0 then [name] else [])) with
      | true => simpa using hq
      | false =>
        simp only [Bool.false_eq_true, if_false, hlk1, hlk2, eq_self_iff_true, if_true]
        exact updAt_preserves_file _ fs0 _ q c m hq (hq_ne _ hex)
          (isRealDirO_of_not_exists _ hex)

/-- Counterexample to C4 as stated: under no-clobber, a pre-existing
destination file `s` with content `[1, 2]` is nevertheless replaced by a
symlink when the source holds a symlinked subdirectory named `s` — the
replication path never consults the skip policy. -/
theorem C4_noclobber_cex :
    cfgNC.noClobber = true
    ∧ lookupE fs0NCex ["s"] = some (.file [1, 2] 3)
    ∧ lookupE (copy_tree cfgNC (fun _ => false) "a" srcNCex fs0NCex).fs ["s"]
        = some (.symlink "t" .toDir 7)
    ∧ (some (Entry.symlink "t" .toDir 7) : Option Entry) ≠ some (.file [1, 2] 3) :=
  ⟨rfl, rfl, rfl, by simp⟩

/-- Witness for C4 at a concrete destination holding a file the source
does not shadow with a symlinked subdirectory. -/
theorem C4_noclobber_frame_witness :
    cfgNC.noClobber = true
    ∧ cfgNC.followSymlinks = false
    ∧ lookupE (some (.dir 0 [("keep", .file [9] 4)])) ["keep"] = some (.file [9] 4)
    ∧ ["keep"] ∉ symdPaths srcNCex
    ∧ lookupE (copy_tree cfgNC (fun _ => false) "a" srcNCex
        (some (.dir 0 [("keep", .file [9] 4)]))).fs ["keep"] = some (.file [9] 4) :=
  ⟨rfl, rfl, rfl, by decide,
    C4_noclobber_frame cfgNC (fun _ => false) "a" srcNCex
      (some (.dir 0 [("keep", .file [9] 4)])) ["keep"] [9] 4 rfl rfl rfl (by decide)⟩

/-- Helper: with neither no-clobber nor update-only set, nothing is ever
skipped. -/
theorem should_skip_none (ex : Bool) (sm dm : Option Int) :
    should_skip_copy ex false false sm dm = false := by
  cases ex <;> rfl

/-- Helper: setting a child to the value it already holds changes
nothing. -/
theorem childSet_self_of_lookup (cs : List (String × Entry)) (n : String) (v : Entry)
    (h : lookupChild cs n = some v) : childSet cs n v = cs := by
  induction cs with
  | nil => simp [lookupChild] at h
  | cons kv rest ih =>
    obtain ⟨k, v2⟩ := kv
    by_cases hk : k = n
    · subst hk
      have h2 : v2 = v := by simpa [lookupChild] using h
      subst h2
      simp [childSet]
    · simp only [lookupChild, if_neg hk] at h
      simp [childSet, hk, ih h]

/-- Helper: erasing an absent name changes nothing. -/
theorem childErase_of_lookup_none (cs : List (String × Entry)) (n : String)
    (h : lookupChild cs n = none) : childErase cs n = cs := by
  induction cs with
  | nil => rfl
  | cons kv rest ih =>
    obtain ⟨k, v2⟩ := kv
    by_cases hk : k = n
    · subst hk; simp [lookupChild] at h
    · simp only [lookupChild, if_neg hk] at h
      simp [childErase, hk, ih h]

/-- Helper: rewriting a path with the value already there is the
identity. -/
theorem updAt_self : ∀ (p : List String) (fs : Option Entry),
    updAt fs p (fun _ => lookupE fs p) = fs := by
  intro p
  induction p with
  | nil =>
    intro fs
    cases fs with
    | none => rfl
    | some e => cases e <;> rfl
  | cons n p' ih =>
    intro fs
    cases fs with
    | none => rfl
    | some e =>
      cases e with
      | file _ _ => rfl
      | symlink _ _ _ => rfl
      | dir dm cs =>
        show some (Entry.dir dm (childUpd cs n
            (updAt (lookupChild cs n) p' (fun _ => lookupE (lookupChild cs n) p'))))
          = some (Entry.dir dm cs)
        rw [ih (lookupChild cs n)]
        cases hsub : lookupChild cs n with
        | none =>
          show some (Entry.dir dm (childErase cs n)) = some (Entry.dir dm cs)
          rw [childErase_of_lookup_none cs n hsub]
        | some v =>
          show some (Entry.dir dm (childSet cs n v)) = some (Entry.dir dm cs)
          rw [childSet_self_of_lookup cs n v hsub]

/-- Helper: path lookup splits over path concatenation. -/
theorem lookupE_append : ∀ (p q : List String) (fs : Option Entry),
    lookupE fs (p ++ q) = lookupE (lookupE fs p) q := by
  intro p
  induction p with
  | nil =>
    intro q fs
    cases fs with
    | none => rfl
    | some e => cases e <;> rfl
  | cons n p' ih =>
    intro q fs
    cases fs with
    | none => cases q <;> rfl
    | some e =>
      cases e with
      | file _ _ => cases q <;> rfl
      | symlink _ _ _ => cases q <;> rfl
      | dir dm cs =>
        show lookupE (lookupChild cs n) (p' ++ q)
          = lookupE (lookupE (lookupChild cs n) p') q
        exact ih q (lookupChild cs n)

/-- Helper: lookup of the empty path is the world itself. -/
theorem lookupE_nil (x : Option Entry) : lookupE x [] = x := by
  cases x with
  | none => rfl
  | some e => cases e <;> rfl

/-- Helper: a successful nonempty lookup starts at a directory. -/
theorem lookupE_cons_some (x : Option Entry) (h : String) (t : List String)
    (e : Entry) (hl : lookupE x (h :: t) = some e) :
    ∃ dm dcs, x = some (.dir dm dcs) := by
  cases x with
  | none => simp [lookupE] at hl
  | some e0 =>
    cases e0 with
    | file _ _ => simp [lookupE] at hl
    | symlink _ _ _ => simp [lookupE] at hl
    | dir dm dcs => exact ⟨dm, dcs, rfl⟩

/-- Helper: prefixes of source directory paths are source directory
paths. -/
theorem isSrcDirPath_mono (cs : List (String × Entry)) (d q : List String)
    (hd : isSrcDirPath cs d) (hpre : q <+: d) : isSrcDirPath cs q := by
  obtain ⟨r, hr⟩ := hpre
  subst hr
  obtain ⟨dm, dcs, hdir⟩ := hd
  rw [show srcAt cs (q ++ r) = lookupE (srcAt cs q) r from lookupE_append q r _] at hdir
  cases r with
  | nil =>
    rw [lookupE_nil] at hdir
    exact ⟨dm, dcs, hdir⟩
  | cons h t =>
    obtain ⟨dm2, dcs2, hx⟩ := lookupE_cons_some _ h t _ hdir
    exact ⟨dm2, dcs2, hx⟩

/-- Helper: a write of a concrete entry through `updAt` never produces an
empty world. -/
theorem updAt_some_ne_none (v : Entry) (p : List String) (e0 : Entry) :
    updAt (some v) p (fun _ => some e0) ≠ none := by
  cases p with
  | nil => cases v <;> simp [updAt]
  | cons n p' =>
    cases v with
    | file _ _ => simp [updAt]
    | symlink _ _ _ => simp [updAt]
    | dir _ _ => simp [updAt]

/-- Helper: updating at the empty path applies the rewrite to the whole
world. -/
theorem updAt_nil (fs : Option Entry) (f : Option Entry → Option Entry) :
    updAt fs [] f = f fs := by
  cases fs with
  | none => rfl
  | some e => cases e <;> rfl

/-- Characterization of lookups after a non-directory write: every entry
visible afterwards was already there, is the written entry at the written
path, or is a rebuilt directory that was a directory with the same
timestamp before. -/
theorem updAt_lookup_char :
    ∀ (p : List String) (fs : Option Entry) (e0 : Entry) (q : List String) (e' : Entry),
      (∀ dm dcs, e0 ≠ .dir dm dcs) →
      lookupE (updAt fs p (fun _ => some e0)) q = some e' →
      lookupE fs q = some e' ∨ (q = p ∧ e' = e0) ∨
        (∃ dm dcs0 dcs', lookupE fs q = some (.dir dm dcs0) ∧ e' = .dir dm dcs') := by
  intro p
  induction p with
  | nil =>
    intro fs e0 q e' hnd hl
    rw [updAt_nil] at hl
    cases q with
    | nil =>
      rw [lookupE_nil] at hl
      cases hl
      right; left
      exact ⟨rfl, rfl⟩
    | cons k q' =>
      cases e0 with
      | dir dm dcs => exact absurd rfl (hnd dm dcs)
      | file _ _ => simp [lookupE] at hl
      | symlink _ _ _ => simp [lookupE] at hl
  | cons n p' ih =>
    intro fs e0 q e' hnd hl
    cases fs with
    | none => left; exact hl
    | some ent =>
      cases ent with
      | file _ _ => left; exact hl
      | symlink _ _ _ => left; exact hl
      | dir dm cs =>
        cases q with
        | nil =>
          rw [lookupE_nil] at hl
          cases hl
          right; right
          refine ⟨dm, cs, _, ?_, rfl⟩
          rw [lookupE_nil]
        | cons k q' =>
          by_cases hk : k = n
          · subst hk
            have hstep : lookupE (updAt (some (Entry.dir dm cs)) (k :: p')
                (fun _ => some e0)) (k :: q')
                = lookupE (lookupChild (childUpd cs k
                    (updAt (lookupChild cs k) p' (fun _ => some e0))) k) q' := rfl
            rw [hstep] at hl
            cases hsub : lookupChild cs k with
            | none =>
              rw [hsub] at hl
              cases p' with
              | nil =>
                rw [show updAt none ([] : List String) (fun _ => some e0) = some e0
                    from rfl] at hl
                rw [show childUpd cs k (some e0) = childSet cs k e0 from rfl,
                  lookupChild_childSet_self] at hl
                cases q' with
                | nil =>
                  rw [lookupE_nil] at hl
                  cases hl
                  right; left
                  exact ⟨rfl, rfl⟩
                | cons k2 q2 =>
                  cases e0 with
                  | dir dm2 dcs2 => exact absurd rfl (hnd dm2 dcs2)
                  | file _ _ => simp [lookupE] at hl
                  | symlink _ _ _ => simp [lookupE] at hl
              | cons h2 t2 =>
                rw [show updAt none (h2 :: t2) (fun _ => some e0) = none from rfl,
                  show childUpd cs k none = childErase cs k from rfl,
                  childErase_of_lookup_none cs k hsub, hsub] at hl
                cases q' with
                | nil =>
                  rw [lookupE_nil] at hl
                  exact absurd hl (by simp)
                | cons k2 q2 => simp [lookupE] at hl
            | some v =>
              rw [hsub] at hl
              cases hX : updAt (some v) p' (fun _ => some e0) with
              | none => exact absurd hX (updAt_some_ne_none v p' e0)
              | some eX =>
                rw [hX, show childUpd cs k (some eX) = childSet cs k eX from rfl,
                  lookupChild_childSet_self] at hl
                rw [← hX] at hl
                rcases ih (some v) e0 q' e' hnd hl with h | ⟨hq, he⟩ | ⟨dm2, dcs0, dcs', hv, he⟩
                · left
                  show lookupE (lookupChild cs k) q' = some e'
                  rw [hsub]; exact h
                · right; left
                  exact ⟨by rw [hq], he⟩
                · right; right
                  refine ⟨dm2, dcs0, dcs', ?_, he⟩
                  show lookupE (lookupChild cs k) q' = some (.dir dm2 dcs0)
                  rw [hsub]; exact hv
          · left
            have hstep : lookupE (updAt (some (Entry.dir dm cs)) (n :: p')
                (fun _ => some e0)) (k :: q')
                = lookupE (lookupChild (childUpd cs n
                    (updAt (lookupChild cs n) p' (fun _ => some e0))) k) q' := rfl
            rw [hstep, lookupChild_childUpd_ne cs n k _ hk] at hl
            exact hl

/-- A write through `updAt` lands at its path when every strict prefix of
the path holds a real directory. -/
theorem updAt_write_reaches :
    ∀ (p : List String) (fs : Option Entry) (e0 : Entry),
      (∀ q, q <+: p → q ≠ p → isRealDirO (lookupE fs q) = true) →
      lookupE (updAt fs p (fun _ => some e0)) p = some e0 := by
  intro p
  induction p with
  | nil =>
    intro fs e0 _
    rw [updAt_nil, lookupE_nil]
  | cons n p' ih =>
    intro fs e0 hpre
    have hroot : isRealDirO (lookupE fs []) = true := by
      apply hpre [] List.nil_prefix
      simp
    rw [lookupE_nil] at hroot
    cases fs with
    | none => simp [isRealDirO] at hroot
    | some ent =>
      cases ent with
      | file _ _ => simp [isRealDirO] at hroot
      | symlink _ _ _ => simp [isRealDirO] at hroot
      | dir dm cs =>
        have hsubpre : ∀ q, q <+: p' → q ≠ p' →
            isRealDirO (lookupE (lookupChild cs n) q) = true := by
          intro q hq hqne
          exact hpre (n :: q) (List.cons_prefix_cons.mpr ⟨rfl, hq⟩)
            (fun hh => hqne (by injection hh))
        show lookupE (lookupChild (childUpd cs n
            (updAt (lookupChild cs n) p' (fun _ => some e0))) n) p' = some e0
        cases hsub : lookupChild cs n with
        | none =>
          cases p' with
          | nil =>
            rw [show updAt none ([] : List String) (fun _ => some e0) = some e0 from rfl,
              show childUpd cs n (some e0) = childSet cs n e0 from rfl,
              lookupChild_childSet_self, lookupE_nil]
          | cons h2 t2 =>
            exfalso
            have hz := hsubpre [] List.nil_prefix (by simp)
            rw [lookupE_nil, hsub] at hz
            simp [isRealDirO] at hz
        | some v =>
          rw [hsub] at hsubpre
          cases hX : updAt (some v) p' (fun _ => some e0) with
          | none => exact absurd hX (updAt_some_ne_none v p' e0)
          | some eX =>
            rw [show childUpd cs n (some eX) = childSet cs n eX from rfl,
              lookupChild_childSet_self, ← hX]
            exact ih (some v) e0 hsubpre

/-- Characterization of lookups after a successful `makedirs`: every entry
visible afterwards was already there, or is a directory sitting on a
prefix of the created path. -/
theorem mkdirsE_lookup_char :
    ∀ (d : List String) (fs : Option Entry) (e' : Entry) (q : List String) (e : Entry),
      mkdirsE fs d = .ok e' → lookupE (some e') q = some e →
      lookupE fs q = some e ∨ (q <+: d ∧ ∃ dm dcs, e = .dir dm dcs) := by
  intro d
  induction d with
  | nil =>
    intro fs e' q e hmk hl
    cases fs with
    | none =>
      have he' : e' = .dir 0 [] := by simpa [mkdirsE] using hmk.symm
      subst he'
      cases q with
      | nil =>
        rw [lookupE_nil] at hl
        cases hl
        right
        exact ⟨List.nil_prefix, 0, [], rfl⟩
      | cons k q' =>
        rw [show lookupE (some (Entry.dir 0 [])) (k :: q') = lookupE none q' by
          simp [lookupE, lookupChild]] at hl
        cases q' <;> simp [lookupE] at hl
    | some ent =>
      cases ent with
      | file _ _ => simp [mkdirsE] at hmk
      | dir dm cs =>
        have he' : e' = .dir dm cs := by simpa [mkdirsE] using hmk.symm
        subst he'
        left; exact hl
      | symlink t k m =>
        cases k with
        | toDir =>
          have he' : e' = .symlink t .toDir m := by simpa [mkdirsE] using hmk.symm
          subst he'
          left; exact hl
        | toFile => simp [mkdirsE] at hmk
        | broken => simp [mkdirsE] at hmk
  | cons n d' ih =>
    intro fs e' q e hmk hl
    cases fs with
    | none =>
      cases hsub : mkdirsE none d' with
      | error u =>
        simp only [mkdirsE, hsub] at hmk
        exact Except.noConfusion hmk
      | ok sub =>
        simp only [mkdirsE, hsub] at hmk
        have he' : e' = .dir 0 [(n, sub)] := by cases hmk; rfl
        subst he'
        cases q with
        | nil =>
          rw [lookupE_nil] at hl
          cases hl
          right
          exact ⟨List.nil_prefix, 0, [(n, sub)], rfl⟩
        | cons k q' =>
          by_cases hk : k = n
          · subst hk
            rw [show lookupE (some (Entry.dir 0 [(k, sub)])) (k :: q')
                = lookupE (some sub) q' by simp [lookupE, lookupChild]] at hl
            rcases ih none sub q' e hsub hl with h | ⟨hpre, hdir⟩
            · exfalso
              cases q' with
              | nil => rw [lookupE_nil] at h; exact Option.noConfusion h
              | cons _ _ => simp [lookupE] at h
            · right
              exact ⟨List.cons_prefix_cons.mpr ⟨rfl, hpre⟩, hdir⟩
          · rw [show lookupE (some (Entry.dir 0 [(n, sub)])) (k :: q')
                = lookupE (lookupChild [(n, sub)] k) q' from rfl] at hl
            rw [show lookupChild [(n, sub)] k = none by
              simp [lookupChild]
              exact fun hh => hk hh.symm] at hl
            exfalso
            cases q' with
            | nil => rw [lookupE_nil] at hl; exact Option.noConfusion hl
            | cons _ _ => simp [lookupE] at hl
    | some ent =>
      cases ent with
      | file _ _ => simp [mkdirsE] at hmk
      | symlink _ _ _ => simp [mkdirsE] at hmk
      | dir dm cs =>
        cases hsub : mkdirsE (lookupChild cs n) d' with
        | error u =>
          simp only [mkdirsE, hsub] at hmk
          exact Except.noConfusion hmk
        | ok sub =>
          simp only [mkdirsE, hsub] at hmk
          have he' : e' = .dir dm (childSet cs n sub) := by cases hmk; rfl
          subst he'
          cases q with
          | nil =>
            rw [lookupE_nil] at hl
            cases hl
            right
            exact ⟨List.nil_prefix, dm, childSet cs n sub, rfl⟩
          | cons k q' =>
            by_cases hk : k = n
            · subst hk
              rw [show lookupE (some (Entry.dir dm (childSet cs k sub))) (k :: q')
                  = lookupE (lookupChild (childSet cs k sub) k) q' from rfl,
                lookupChild_childSet_self] at hl
              rcases ih (lookupChild cs k) sub q' e hsub hl with h | ⟨hpre, hdir⟩
              · left; exact h
              · right
                exact ⟨List.cons_prefix_cons.mpr ⟨rfl, hpre⟩, hdir⟩
            · rw [show lookupE (some (Entry.dir dm (childSet cs n sub))) (k :: q')
                  = lookupE (lookupChild (childSet cs n sub) k) q' from rfl,
                lookupChild_childSet_ne cs n k sub hk] at hl
              left; exact hl

/-- A `makedirs` call succeeds whenever every prefix of the requested path
holds a directory or nothing. -/
theorem mkdirsE_success :
    ∀ (d : List String) (fs : Option Entry),
      (∀ q, q <+: d → lookupE fs q = none ∨
        ∃ dm dcs, lookupE fs q = some (.dir dm dcs)) →
      ∃ e', mkdirsE fs d = .ok e' := by
  intro d
  induction d with
  | nil =>
    intro fs hpre
    rcases hpre [] List.nil_prefix with h | ⟨dm, dcs, h⟩
    · rw [lookupE_nil] at h
      subst h
      exact ⟨.dir 0 [], rfl⟩
    · rw [lookupE_nil] at h
      subst h
      exact ⟨.dir dm dcs, rfl⟩
  | cons n d' ih =>
    intro fs hpre
    rcases hpre [] List.nil_prefix with h | ⟨dm, dcs, h⟩
    · rw [lookupE_nil] at h
      subst h
      obtain ⟨sub, hsub⟩ := ih none (by
        intro q hq
        left
        cases q with
        | nil => rw [lookupE_nil]
        | cons _ _ => rfl)
      exact ⟨.dir 0 [(n, sub)], by simp [mkdirsE, hsub]⟩
    · rw [lookupE_nil] at h
      subst h
      obtain ⟨sub, hsub⟩ := ih (lookupChild dcs n) (by
        intro q hq
        exact hpre (n :: q) (List.cons_prefix_cons.mpr ⟨rfl, hq⟩))
      exact ⟨.dir dm (childSet dcs n sub), by simp [mkdirsE, hsub]⟩

/-- After a successful `makedirs` whose path ran only over directories or
missing slots, every prefix of the path holds a real directory. -/
theorem mkdirsE_dirs :
    ∀ (d : List String) (fs : Option Entry) (e' : Entry),
      mkdirsE fs d = .ok e' →
      (∀ q, q <+: d → lookupE fs q = none ∨
        ∃ dm dcs, lookupE fs q = some (.dir dm dcs)) →
      ∀ q, q <+: d → isRealDirO (lookupE (some e') q) = true := by
  intro d
  induction d with
  | nil =>
    intro fs e' hmk hpre q hq
    rw [List.prefix_nil] at hq
    subst hq
    rw [lookupE_nil]
    rcases hpre [] List.nil_prefix with h | ⟨dm, dcs, h⟩ <;> rw [lookupE_nil] at h <;> subst h
    · have he' : e' = .dir 0 [] := by simpa [mkdirsE] using hmk.symm
      subst he'; rfl
    · have he' : e' = .dir dm dcs := by simpa [mkdirsE] using hmk.symm
      subst he'; rfl
  | cons n d' ih =>
    intro fs e' hmk hpre q hq
    rcases hpre [] List.nil_prefix with h | ⟨dm, dcs, h⟩ <;> rw [lookupE_nil] at h <;> subst h
    · cases hsub : mkdirsE none d' with
      | error u =>
        simp only [mkdirsE, hsub] at hmk
        exact Except.noConfusion hmk
      | ok sub =>
        simp only [mkdirsE, hsub] at hmk
        have he' : e' = .dir 0 [(n, sub)] := by cases hmk; rfl
        subst he'
        cases q with
        | nil => rw [lookupE_nil]; rfl
        | cons k q' =>
          obtain ⟨hk, hq'⟩ := List.cons_prefix_cons.mp hq
          subst hk
          rw [show lookupE (some (Entry.dir 0 [(k, sub)])) (k :: q')
              = lookupE (some sub) q' by simp [lookupE, lookupChild]]
          exact ih none sub hsub (by
            intro q2 hq2
            left
            cases q2 with
            | nil => rw [lookupE_nil]
            | cons _ _ => rfl) q' hq'
    · cases hsub : mkdirsE (lookupChild dcs n) d' with
      | error u =>
        simp only [mkdirsE, hsub] at hmk
        exact Except.noConfusion hmk
      | ok sub =>
        simp only [mkdirsE, hsub] at hmk
        have he' : e' = .dir dm (childSet dcs n sub) := by cases hmk; rfl
        subst he'
        cases q with
        | nil => rw [lookupE_nil]; rfl
        | cons k q' =>
          obtain ⟨hk, hq'⟩ := List.cons_prefix_cons.mp hq
          subst hk
          rw [show lookupE (some (Entry.dir dm (childSet dcs k sub))) (k :: q')
              = lookupE (lookupChild (childSet dcs k sub) k) q' from rfl,
            lookupChild_childSet_self]
          exact ih (lookupChild dcs k) sub hsub (by
            intro q2 hq2
            exact hpre (k :: q2) (List.cons_prefix_cons.mpr ⟨rfl, hq2⟩)) q' hq'

/-- Helper: the empty relative path is a source directory path. -/
theorem isSrcDirPath_nil (cs : List (String × Entry)) : isSrcDirPath cs [] :=
  ⟨0, cs, lookupE_nil _⟩

/-- Helper: source lookup of a one-component path is a listing lookup. -/
theorem srcAt_singleton (cs : List (String × Entry)) (n : String) :
    srcAt cs [n] = lookupChild cs n := by
  show lookupE (some (Entry.dir 0 cs)) [n] = lookupChild cs n
  rw [show lookupE (some (Entry.dir 0 cs)) [n]
    = lookupE (lookupChild cs n) ([] : List String) from rfl, lookupE_nil]

/-- Helper: in a duplicate-free listing, membership determines the
lookup. -/
theorem wfC_lookup : ∀ (cs : List (String × Entry)) (n : String) (e : Entry),
    wfC cs = true → (n, e) ∈ cs → lookupChild cs n = some e := by
  intro cs
  induction cs with
  | nil => intro n e _ hmem; simp at hmem
  | cons kv rest ih =>
    intro n e hwf hmem
    obtain ⟨k, v⟩ := kv
    rw [show wfC ((k, v) :: rest)
        = (!(rest.any (fun ne2 => ne2.1 = k)) && wfE v && wfC rest) from rfl] at hwf
    simp only [Bool.and_eq_true, Bool.not_eq_true'] at hwf
    obtain ⟨⟨hno, _hwe⟩, hrest⟩ := hwf
    rcases List.mem_cons.mp hmem with heq | htail
    · have h1 : n = k := congrArg Prod.fst heq
      have h2 : e = v := congrArg Prod.snd heq
      subst h1; subst h2
      simp [lookupChild]
    · by_cases hk : k = n
      · subst hk
        exfalso
        have : rest.any (fun ne2 => ne2.1 = k) = true :=
          List.any_eq_true.mpr ⟨(k, e), htail, by simp⟩
        rw [this] at hno
        exact Bool.noConfusion hno
      · rw [show lookupChild ((k, v) :: rest) n
            = if k = n then some v else lookupChild rest n from rfl, if_neg hk]
        exact ih n e hrest htail

/-- Helper: members of a well-formed listing are well-formed. -/
theorem wfC_mem_wfE : ∀ (cs : List (String × Entry)) (n : String) (e : Entry),
    wfC cs = true → (n, e) ∈ cs → wfE e = true := by
  intro cs
  induction cs with
  | nil => intro n e _ hmem; simp at hmem
  | cons kv rest ih =>
    intro n e hwf hmem
    obtain ⟨k, v⟩ := kv
    rw [show wfC ((k, v) :: rest)
        = (!(rest.any (fun ne2 => ne2.1 = k)) && wfE v && wfC rest) from rfl] at hwf
    simp only [Bool.and_eq_true, Bool.not_eq_true'] at hwf
    obtain ⟨⟨_hno, hwe⟩, hrest⟩ := hwf
    rcases List.mem_cons.mp hmem with heq | htail
    · have h2 : e = v := congrArg Prod.snd heq
      rw [h2]; exact hwe
    · exact ih n e hrest htail

/-- Helper: every action of the recursive descent comes from some actual
subdirectory's walk, shifted one level down. -/
theorem childWalk_mem : ∀ (cs : List (String × Entry)) (it : WItem),
    it ∈ childWalk cs →
    ∃ n m sub, (n, Entry.dir m sub) ∈ cs ∧
      ∃ it', it' ∈ rootWalk sub ∧ it = prependItem n it' := by
  intro cs
  induction cs with
  | nil => intro it hit; simp [childWalk] at hit
  | cons kv rest ih =>
    intro it hit
    obtain ⟨k, v⟩ := kv
    rw [show childWalk ((k, v) :: rest) = entryWalk k v ++ childWalk rest from rfl,
      List.mem_append] at hit
    rcases hit with hl | hr
    · cases v with
      | file _ _ => simp [entryWalk] at hl
      | symlink _ _ _ => simp [entryWalk] at hl
      | dir m sub =>
        rw [show entryWalk k (Entry.dir m sub)
            = (dirItems [] sub ++ childWalk sub).map (prependItem k) from rfl,
          List.mem_map] at hl
        obtain ⟨it', hit', heq⟩ := hl
        exact ⟨k, m, sub, List.mem_cons_self _ _, it', hit', heq.symm⟩
    · obtain ⟨n, m, sub, hmem, it', hit', heq⟩ := ih it hr
      exact ⟨n, m, sub, List.mem_cons_of_mem _ hmem, it', hit', heq⟩

/-- Helper: a source directory path of a subdirectory's tree, shifted one
level down into the parent listing, is a source directory path. -/
theorem isSrcDirPath_cons (cs : List (String × Entry)) (n : String) (m : Int)
    (sub : List (String × Entry)) (p : List String)
    (hsub : lookupChild cs n = some (.dir m sub)) (hp : isSrcDirPath sub p) :
    isSrcDirPath cs (n :: p) := by
  cases p with
  | nil =>
    refine ⟨m, sub, ?_⟩
    show lookupE (lookupChild cs n) ([] : List String) = some (Entry.dir m sub)
    rw [lookupE_nil, hsub]
  | cons h t =>
    obtain ⟨dm, dcs, hd⟩ := hp
    refine ⟨dm, dcs, ?_⟩
    show lookupE (lookupChild cs n) (h :: t) = some (Entry.dir dm dcs)
    rw [hsub]
    exact hd

/-- Helper: a nonempty source leaf path shifted one level down keeps its
entry. -/
theorem srcAt_cons_ne_nil (cs : List (String × Entry)) (n : String) (m : Int)
    (sub : List (String × Entry)) (p : List String) (e : Entry)
    (hsub : lookupChild cs n = some (.dir m sub)) (hp : p ≠ [])
    (he : srcAt sub p = some e) : srcAt cs (n :: p) = some e := by
  cases p with
  | nil => exact absurd rfl hp
  | cons h t =>
    show lookupE (lookupChild cs n) (h :: t) = some e
    rw [hsub]
    exact he

/-- Helper: shifting a sound action one directory level down keeps it
sound. -/
theorem itemOK_prepend (cs : List (String × Entry)) (n : String) (m : Int)
    (sub : List (String × Entry)) (it : WItem)
    (hsub : lookupChild cs n = some (.dir m sub)) (hok : itemOK sub it) :
    itemOK cs (prependItem n it) := by
  cases it with
  | mkd rel =>
    exact isSrcDirPath_cons cs n m sub rel hsub hok
  | copyf p e =>
    obtain ⟨hp, hat, hwk, hdl⟩ := hok
    refine ⟨by simp, srcAt_cons_ne_nil cs n m sub p e hsub hp hat, hwk, ?_⟩
    cases p with
    | nil => exact absurd rfl hp
    | cons h t =>
      rw [show (n :: h :: t).dropLast = n :: (h :: t).dropLast from rfl]
      exact isSrcDirPath_cons cs n m sub _ hsub hdl
  | symd p t2 m2 =>
    obtain ⟨hp, hat, hdl⟩ := hok
    refine ⟨by simp, srcAt_cons_ne_nil cs n m sub p _ hsub hp hat, ?_⟩
    cases p with
    | nil => exact absurd rfl hp
    | cons h t =>
      rw [show (n :: h :: t).dropLast = n :: (h :: t).dropLast from rfl]
      exact isSrcDirPath_cons cs n m sub _ hsub hdl

/-- Every action of a well-formed source tree's walk is sound with respect
to that tree. -/
theorem walk_itemOK (cs : List (String × Entry)) (hwf : wfC cs = true) :
    ∀ it, it ∈ rootWalk cs → itemOK cs it := by
  intro it hit
  rw [show rootWalk cs = dirItems [] cs ++ childWalk cs from rfl,
    List.mem_append] at hit
  rcases hit with hd | hc
  · rw [show dirItems [] cs
        = WItem.mkd [] :: (fileItems [] cs ++ symdItems [] cs) from rfl,
      List.mem_cons] at hd
    rcases hd with rfl | hd
    · exact isSrcDirPath_nil cs
    rw [List.mem_append] at hd
    rcases hd with hf | hs
    · rw [show fileItems [] cs = cs.filterMap (fun ne2 =>
          if isWalkFile ne2.2 then some (.copyf ([] ++ [ne2.1]) ne2.2) else none) from rfl,
        List.mem_filterMap] at hf
      obtain ⟨⟨n, e⟩, hmem, heq⟩ := hf
      by_cases hwk : isWalkFile e = true
      · rw [if_pos hwk] at heq
        cases heq
        refine ⟨by simp, ?_, hwk, ?_⟩
        · rw [show ([] : List String) ++ [n] = [n] from rfl, srcAt_singleton]
          exact wfC_lookup cs n e hwf hmem
        · rw [show (([] : List String) ++ [n]).dropLast = ([] : List String) from rfl]
          exact isSrcDirPath_nil cs
      · rw [if_neg hwk] at heq
        exact Option.noConfusion heq
    · rw [show symdItems [] cs = cs.filterMap (fun ne2 =>
          match ne2.2 with
          | .symlink t .toDir m => some (.symd ([] ++ [ne2.1]) t m)
          | _ => none) from rfl,
        List.mem_filterMap] at hs
      obtain ⟨⟨n, e⟩, hmem, heq⟩ := hs
      cases e with
      | file _ _ => exact Option.noConfusion heq
      | dir _ _ => exact Option.noConfusion heq
      | symlink t2 k2 m2 =>
        cases k2 with
        | toFile => exact Option.noConfusion heq
        | broken => exact Option.noConfusion heq
        | toDir =>
          cases heq
          refine ⟨by simp, ?_, ?_⟩
          · rw [show ([] : List String) ++ [n] = [n] from rfl, srcAt_singleton]
            exact wfC_lookup cs n _ hwf hmem
          · rw [show (([] : List String) ++ [n]).dropLast = ([] : List String) from rfl]
            exact isSrcDirPath_nil cs
  · obtain ⟨n, m, sub, hmem, it', hit', rfl⟩ := childWalk_mem cs it hc
    have hsublookup := wfC_lookup cs n (.dir m sub) hwf hmem
    have hsubwf : wfC sub = true := by
      simpa [wfE] using wfC_mem_wfE cs n (.dir m sub) hwf hmem
    exact itemOK_prepend cs n m sub it' hsublookup (walk_itemOK sub hsubwf it' hit')
termination_by sizeOf cs
decreasing_by
  have h1 := List.sizeOf_lt_of_mem hmem
  simp only [Prod.mk.sizeOf_spec, Entry.dir.sizeOf_spec] at h1
  omega

/-- Reduction of a successful atomic file copy over the sendfile fast
path. -/
theorem copy_file_file_ok (cfg : CopyConfig) (c : Bytes) (mm : Int)
    (dst0 : Option Entry) (tmp : String) (reg : List String)
    (hat : cfg.atomic = true) (hsf : cfg.sendfileOk = true) (hro : cfg.replaceOk = true)
    (hnd : isRealDirO dst0 = false) :
    copy_file cfg false (.file c mm) dst0 tmp reg
      = ⟨some (.file c 0), (tmp :: reg).erase tmp, false, none⟩ := by
  show (if existsE (some (.file c mm)) = false then _ else _) = _
  simp only [existsE, Bool.true_eq_false, if_false]
  show (if cfg.atomic then _ else _) = _
  rw [hat]
  simp only [if_true, Bool.false_eq_true, if_false, hro, hnd, Bool.not_false,
    Bool.and_true, Bool.true_and, contentOf]
  rw [show transferContent cfg c = c by rw [transferContent, hsf]; simp]

/-- Reduction of an atomic file copy whose transfer raises. -/
theorem copy_file_file_err (cfg : CopyConfig) (c : Bytes) (mm : Int)
    (dst0 : Option Entry) (tmp : String) (reg : List String)
    (hat : cfg.atomic = true) :
    copy_file cfg true (.file c mm) dst0 tmp reg
      = ⟨dst0, (tmp :: reg).erase tmp, false, some .copyFailed⟩ := by
  show (if existsE (some (.file c mm)) = false then _ else _) = _
  simp only [existsE, Bool.true_eq_false, if_false]
  show (if cfg.atomic then _ else _) = _
  rw [hat]
  simp

/-- Reduction of `copy_file` on a symlink source in link-preserving
mode: the outcome depends only on the shape of the destination slot. -/
theorem copy_file_symlink_red (cfg : CopyConfig) (tf : Bool) (t : String)
    (k : LinkKind) (m : Int) (cur : Option Entry) (tmp : String) (reg : List String)
    (hfw : cfg.followSymlinks = false) :
    copy_file cfg tf (.symlink t k m) cur tmp reg =
      if k = .broken then ⟨cur, reg, false, some .fileNotFound⟩
      else if existsE cur then
        match cur with
        | some (.dir _ _) => ⟨cur, reg, false, some .isADirectory⟩
        | _ => ⟨some (.symlink t k m), reg, false, none⟩
      else
        match cur with
        | none => ⟨some (.symlink t k m), reg, false, none⟩
        | some _ => ⟨cur, reg, false, some .fileExists⟩ := by
  cases k with
  | broken => unfold copy_file; rw [hfw]; rfl
  | toFile => unfold copy_file; rw [hfw]; rfl
  | toDir => unfold copy_file; rw [hfw]; rfl

/-- Helper: a source leaf path is not a source directory path. -/
theorem not_dirPath_of_srcAt_file (cs : List (String × Entry)) (p : List String)
    (c : Bytes) (mm : Int) (h : srcAt cs p = some (.file c mm)) :
    ¬ isSrcDirPath cs p := by
  rintro ⟨dm, dcs, hd⟩
  rw [h] at hd
  exact Entry.noConfusion (Option.some.injEq .. ▸ hd :
    Entry.file c mm = Entry.dir dm dcs)

/-- Helper: a source symlink path is not a source directory path. -/
theorem not_dirPath_of_srcAt_symlink (cs : List (String × Entry)) (p : List String)
    (t : String) (k : LinkKind) (mm : Int)
    (h : srcAt cs p = some (.symlink t k mm)) :
    ¬ isSrcDirPath cs p := by
  rintro ⟨dm, dcs, hd⟩
  rw [h] at hd
  exact Entry.noConfusion (Option.some.injEq .. ▸ hd :
    Entry.symlink t k mm = Entry.dir dm dcs)

/-- Helper: under the walk invariant, a destination slot at a non-directory
source path never holds a real directory. -/
theorem slot_not_dir (cs : List (String × Entry)) (fs : Option Entry) (p : List String)
    (hInv : wfInv cs fs) (hnd : ¬ isSrcDirPath cs p) :
    isRealDirO (lookupE fs p) = false := by
  cases hl : lookupE fs p with
  | none => rfl
  | some e =>
    cases e with
    | file _ _ => rfl
    | symlink _ _ _ => rfl
    | dir dm dcs => exact absurd (hInv.1 p dm dcs hl) hnd

/-- Helper: writing the value already present is the identity, lambda
form. -/
theorem updAt_const_self (p : List String) (fs : Option Entry) (x : Option Entry)
    (hx : x = lookupE fs p) : updAt fs p (fun _ => x) = fs := by
  subst hx
  exact updAt_self p fs

/-- The walk invariant survives a successful `makedirs` at a source
directory path. -/
theorem wfInv_mkdirs (cs : List (String × Entry)) (fs : Option Entry)
    (d : List String) (e' : Entry) (hInv : wfInv cs fs)
    (hd : isSrcDirPath cs d) (hmk : mkdirsE fs d = .ok e') :
    wfInv cs (some e') := by
  constructor
  · intro q dm dcs hl
    rcases mkdirsE_lookup_char d fs e' q _ hmk hl with h | ⟨hpre, _⟩
    · exact hInv.1 q dm dcs h
    · exact isSrcDirPath_mono cs d q hd hpre
  · intro q hq
    cases hl : lookupE (some e') q with
    | none => left; rfl
    | some e =>
      cases e with
      | dir dm dcs => right; exact ⟨dm, dcs, rfl⟩
      | file c mm =>
        rcases mkdirsE_lookup_char d fs e' q _ hmk hl with h | ⟨_, dm, dcs, hdir⟩
        · rcases hInv.2 q hq with h2 | ⟨dm, dcs, h2⟩ <;> rw [h2] at h <;>
            exact absurd h (by simp)
        · exact Entry.noConfusion hdir
      | symlink t k mm =>
        rcases mkdirsE_lookup_char d fs e' q _ hmk hl with h | ⟨_, dm, dcs, hdir⟩
        · rcases hInv.2 q hq with h2 | ⟨dm, dcs, h2⟩ <;> rw [h2] at h <;>
            exact absurd h (by simp)
        · exact Entry.noConfusion hdir

/-- Under the walk invariant, `makedirs` at a source directory path
succeeds. -/
theorem mkdirs_ok_of_inv (cs : List (String × Entry)) (fs : Option Entry)
    (d : List String) (hInv : wfInv cs fs) (hd : isSrcDirPath cs d) :
    ∃ e', mkdirsE fs d = .ok e' :=
  mkdirsE_success d fs (fun q hq => hInv.2 q (isSrcDirPath_mono cs d q hd hq))

/-- The walk invariant survives a non-directory write at a non-directory
source path. -/
theorem wfInv_updAt (cs : List (String × Entry)) (fs : Option Entry)
    (p : List String) (e0 : Entry) (hInv : wfInv cs fs)
    (hnp : ¬ isSrcDirPath cs p) (hnd : ∀ dm dcs, e0 ≠ .dir dm dcs) :
    wfInv cs (updAt fs p (fun _ => some e0)) := by
  constructor
  · intro q dm dcs hl
    rcases updAt_lookup_char p fs e0 q _ hnd hl with h | ⟨_, he⟩ | ⟨dm2, dcs0, dcs', hv, _⟩
    · exact hInv.1 q dm dcs h
    · exact absurd he.symm (hnd dm dcs)
    · exact hInv.1 q dm2 dcs0 hv
  · intro q hq
    cases hl : lookupE (updAt fs p (fun _ => some e0)) q with
    | none => left; rfl
    | some e =>
      cases e with
      | dir dm dcs => right; exact ⟨dm, dcs, rfl⟩
      | file c mm =>
        rcases updAt_lookup_char p fs e0 q _ hnd hl with h | ⟨hqp, _⟩ |
            ⟨dm2, dcs0, dcs', hv, he⟩
        · rcases hInv.2 q hq with h2 | ⟨dm, dcs, h2⟩ <;> rw [h2] at h <;>
            exact absurd h (by simp)
        · subst hqp; exact absurd hq hnp
        · exact Entry.noConfusion he
      | symlink t k mm =>
        rcases updAt_lookup_char p fs e0 q _ hnd hl with h | ⟨hqp, _⟩ |
            ⟨dm2, dcs0, dcs', hv, he⟩
        · rcases hInv.2 q hq with h2 | ⟨dm, dcs, h2⟩ <;> rw [h2] at h <;>
            exact absurd h (by simp)
        · subst hqp; exact absurd hq hnp
        · exact Entry.noConfusion he

/-- One sound walk action preserves the walk invariant and never sets the
fatal state (in particular, `makedirs` never aborts the walk). -/
theorem inv_step (cfg : CopyConfig) (tfail : List String → Bool)
    (cs : List (String × Entry)) (st : WSt) (it : WItem)
    (hat : cfg.atomic = true) (hsf : cfg.sendfileOk = true)
    (hro : cfg.replaceOk = true) (hfw : cfg.followSymlinks = false)
    (hInv : wfInv cs st.fs) (hf : st.fatal = none) (hok : itemOK cs it) :
    wfInv cs (stepItem cfg tfail st it).fs ∧ (stepItem cfg tfail st it).fatal = none := by
  have hft : st.fatal.isSome = false := by rw [hf]; rfl
  cases it with
  | mkd rel =>
    obtain ⟨e', hmk⟩ := mkdirs_ok_of_inv cs st.fs rel hInv hok
    simp only [stepItem, hft, Bool.false_eq_true, if_false, mkdStep, hmk]
    exact ⟨wfInv_mkdirs cs st.fs rel e' hInv hok hmk, hf⟩
  | copyf p e =>
    simp only [stepItem, hft, Bool.false_eq_true, if_false, copyfStep]
    cases hsk : should_skip_copy (existsE (lookupE st.fs p)) cfg.noClobber cfg.updateOnly
        (entryMtime e) (optMtime (lookupE st.fs p)) with
    | true => simpa using ⟨hInv, hf⟩
    | false =>
      simp only [Bool.false_eq_true, if_false]
      obtain ⟨hp, hsrc, hwk, hdl⟩ := hok
      cases e with
      | dir dm2 dcs2 => exact absurd hwk (by simp [isWalkFile])
      | file c mm =>
        have hlk : (islinkE (Entry.file c mm) && !cfg.followSymlinks) = false := by
          simp [islinkE]
        simp only [hlk, Bool.false_eq_true, if_false]
        cases hmk : mkdirsE st.fs p.dropLast with
        | error u => exact ⟨hInv, hf⟩
        | ok e1 =>
          have hInv1 := wfInv_mkdirs cs st.fs p.dropLast e1 hInv hdl hmk
          have hpnd := not_dirPath_of_srcAt_file cs p c mm hsrc
          cases htf : tfail p with
          | true =>
            refine ⟨?_, hf⟩
            show wfInv cs (updAt (some e1) p
              (fun _ => (copy_file cfg true (Entry.file c mm)
                (lookupE (some e1) p) cfg.tmpName st.reg).dst))
            rw [copy_file_file_err cfg c mm (lookupE (some e1) p) cfg.tmpName st.reg hat]
            rw [updAt_const_self p (some e1) _ rfl]
            exact hInv1
          | false =>
            refine ⟨?_, hf⟩
            show wfInv cs (updAt (some e1) p
              (fun _ => (copy_file cfg false (Entry.file c mm)
                (lookupE (some e1) p) cfg.tmpName st.reg).dst))
            rw [copy_file_file_ok cfg c mm (lookupE (some e1) p) cfg.tmpName st.reg hat hsf hro
              (slot_not_dir cs (some e1) p hInv1 hpnd)]
            exact wfInv_updAt cs (some e1) p _ hInv1 hpnd
              (fun dm dcs h => Entry.noConfusion h)
      | symlink t k mk =>
        have hlk : (islinkE (Entry.symlink t k mk) && !cfg.followSymlinks) = true := by
          simp [islinkE, hfw]
        simp only [hlk, if_true]
        rw [copy_file_symlink_red cfg (tfail p) t k mk _ cfg.tmpName st.reg hfw]
        have hpnd := not_dirPath_of_srcAt_symlink cs p t k mk hsrc
        cases k with
        | toDir => exact absurd hwk (by simp [isWalkFile])
        | broken =>
          rw [if_pos rfl]
          refine ⟨?_, hf⟩
          show wfInv cs (updAt st.fs p (fun _ => lookupE st.fs p))
          rw [updAt_const_self p st.fs _ rfl]
          exact hInv
        | toFile =>
          rw [if_neg (by decide : ¬ (LinkKind.toFile = LinkKind.broken))]
          cases hcur : lookupE st.fs p with
          | none =>
            simp only [existsE, Bool.false_eq_true, if_false]
            exact ⟨wfInv_updAt cs st.fs p _ hInv hpnd
              (fun dm dcs h => Entry.noConfusion h), hf⟩
          | some e1 =>
            cases e1 with
            | file c2 m2 =>
              simp only [existsE, if_true]
              exact ⟨wfInv_updAt cs st.fs p _ hInv hpnd
                (fun dm dcs h => Entry.noConfusion h), hf⟩
            | dir dm2 dcs2 =>
              simp only [existsE, if_true]
              refine ⟨?_, hf⟩
              show wfInv cs (updAt st.fs p (fun _ => some (Entry.dir dm2 dcs2)))
              rw [updAt_const_self p st.fs _ hcur.symm]
              exact hInv
            | symlink t2 k2 m2 =>
              cases k2 with
              | broken =>
                simp only [existsE, Bool.false_eq_true, if_false]
                refine ⟨?_, hf⟩
                show wfInv cs (updAt st.fs p (fun _ => some (Entry.symlink t2 .broken m2)))
                rw [updAt_const_self p st.fs _ hcur.symm]
                exact hInv
              | toFile =>
                simp only [existsE, if_true]
                exact ⟨wfInv_updAt cs st.fs p _ hInv hpnd
                  (fun dm dcs h => Entry.noConfusion h), hf⟩
              | toDir =>
                simp only [existsE, if_true]
                exact ⟨wfInv_updAt cs st.fs p _ hInv hpnd
                  (fun dm dcs h => Entry.noConfusion h), hf⟩
  | symd p t2 m2 =>
    simp only [stepItem, hft, Bool.false_eq_true, if_false, symdStep]
    obtain ⟨hp, hsrc, hdl⟩ := hok
    have hpnd := not_dirPath_of_srcAt_symlink cs p t2 .toDir m2 hsrc
    cases hcur : lookupE st.fs p with
    | none =>
      simp only [existsE, Bool.false_eq_true, if_false]
      exact ⟨wfInv_updAt cs st.fs p _ hInv hpnd
        (fun dm dcs h => Entry.noConfusion h), hf⟩
    | some e1 =>
      cases e1 with
      | file c2 mm2 =>
        simp only [existsE, if_true]
        exact ⟨wfInv_updAt cs st.fs p _ hInv hpnd
          (fun dm dcs h => Entry.noConfusion h), hf⟩
      | dir dm2 dcs2 =>
        simp only [existsE, if_true]
        exact ⟨hInv, hf⟩
      | symlink t3 k3 m3 =>
        cases k3 with
        | broken =>
          simp only [existsE, Bool.false_eq_true, if_false]
          exact ⟨hInv, hf⟩
        | toFile =>
          simp only [existsE, if_true]
          exact ⟨wfInv_updAt cs st.fs p _ hInv hpnd
            (fun dm dcs h => Entry.noConfusion h), hf⟩
        | toDir =>
          simp only [existsE, if_true]
          exact ⟨wfInv_updAt cs st.fs p _ hInv hpnd
            (fun dm dcs h => Entry.noConfusion h), hf⟩

/-- Under the plain configuration (no skip flags, atomic, fast path
available), a non-failing file-copy action lands the source's bytes at its
destination path. -/
theorem copyf_step_writes (cfg : CopyConfig) (tfail : List String → Bool)
    (cs : List (String × Entry)) (st : WSt) (p : List String) (c : Bytes) (mm : Int)
    (hnc : cfg.noClobber = false) (hup : cfg.updateOnly = false)
    (hat : cfg.atomic = true) (hsf : cfg.sendfileOk = true) (hro : cfg.replaceOk = true)
    (hInv : wfInv cs st.fs) (hf : st.fatal = none)
    (hok : itemOK cs (.copyf p (.file c mm))) (htf : tfail p = false) :
    lookupE (stepItem cfg tfail st (.copyf p (.file c mm))).fs p = some (.file c 0) := by
  have hft : st.fatal.isSome = false := by rw [hf]; rfl
  obtain ⟨hp, hsrc, hwk, hdl⟩ := hok
  have hpnd := not_dirPath_of_srcAt_file cs p c mm hsrc
  simp only [stepItem, hft, Bool.false_eq_true, if_false, copyfStep]
  rw [hnc, hup, should_skip_none]
  simp only [Bool.false_eq_true, if_false]
  have hlk : (islinkE (Entry.file c mm) && !cfg.followSymlinks) = false := by
    simp [islinkE]
  simp only [hlk, Bool.false_eq_true, if_false]
  obtain ⟨e1, hmk⟩ := mkdirs_ok_of_inv cs st.fs p.dropLast hInv hdl
  rw [hmk]
  show lookupE (updAt (some e1) p
    (fun _ => (copy_file cfg (tfail p) (Entry.file c mm)
      (lookupE (some e1) p) cfg.tmpName st.reg).dst)) p = some (.file c 0)
  rw [htf]
  have hInv1 := wfInv_mkdirs cs st.fs p.dropLast e1 hInv hdl hmk
  rw [copy_file_file_ok cfg c mm (lookupE (some e1) p) cfg.tmpName st.reg hat hsf hro
    (slot_not_dir cs (some e1) p hInv1 hpnd)]
  apply updAt_write_reaches
  intro q hqp hqne
  have hq' : q <+: p.dropLast := by
    have hsplit := List.dropLast_append_getLast hp
    rw [← hsplit] at hqp
    rcases List.prefix_concat_iff.mp hqp with he | hh
    · exfalso; apply hqne; rw [he, hsplit]
    · exact hh
  exact mkdirsE_dirs p.dropLast st.fs e1 hmk
    (fun q2 hq2 => hInv.2 q2 (isSrcDirPath_mono cs p.dropLast q2 hdl hq2)) q hq'

/-- Under the plain configuration, a failing file-copy action reports its
path on the error channel and nothing else aborts. -/
theorem copyf_step_reports (cfg : CopyConfig) (tfail : List String → Bool)
    (st : WSt) (p : List String) (c : Bytes) (mm : Int)
    (hnc : cfg.noClobber = false) (hup : cfg.updateOnly = false)
    (hat : cfg.atomic = true) (hf : st.fatal = none) (htf : tfail p = true) :
    (stepItem cfg tfail st (.copyf p (.file c mm))).errs = st.errs ++ [p]
    ∧ (stepItem cfg tfail st (.copyf p (.file c mm))).fatal = none := by
  have hft : st.fatal.isSome = false := by rw [hf]; rfl
  simp only [stepItem, hft, Bool.false_eq_true, if_false, copyfStep]
  rw [hnc, hup, should_skip_none]
  simp only [Bool.false_eq_true, if_false]
  have hlk : (islinkE (Entry.file c mm) && !cfg.followSymlinks) = false := by
    simp [islinkE]
  simp only [hlk, Bool.false_eq_true, if_false]
  cases hmk : mkdirsE st.fs p.dropLast with
  | error u => exact ⟨rfl, hf⟩
  | ok e1 =>
    refine ⟨?_, hf⟩
    show (if (copy_file cfg (tfail p) (Entry.file c mm)
        (lookupE (some e1) p) cfg.tmpName st.reg).err.isSome = true
      then st.errs ++ [p] else st.errs) = st.errs ++ [p]
    rw [htf, copy_file_file_err cfg c mm (lookupE (some e1) p) cfg.tmpName st.reg hat]
    rfl

/-- Under the plain configuration, every sound walk action preserves an
already copied file at a non-failing leaf path. -/
theorem step_keeps_written (cfg : CopyConfig) (tfail : List String → Bool)
    (cs : List (String × Entry)) (st : WSt) (it : WItem)
    (pf : List String) (c : Bytes) (mm : Int)
    (hnc : cfg.noClobber = false) (hup : cfg.updateOnly = false)
    (hat : cfg.atomic = true) (hsf : cfg.sendfileOk = true) (hro : cfg.replaceOk = true)
    (hfw : cfg.followSymlinks = false)
    (hInv : wfInv cs st.fs) (hf : st.fatal = none) (hok : itemOK cs it)
    (hsrc : srcAt cs pf = some (.file c mm)) (htf : tfail pf = false)
    (hw : lookupE st.fs pf = some (.file c 0)) :
    lookupE (stepItem cfg tfail st it).fs pf = some (.file c 0) := by
  have hft : st.fatal.isSome = false := by rw [hf]; rfl
  cases it with
  | mkd rel =>
    obtain ⟨e', hmk⟩ := mkdirs_ok_of_inv cs st.fs rel hInv hok
    simp only [stepItem, hft, Bool.false_eq_true, if_false, mkdStep, hmk]
    exact mkdirsE_preserves_file rel st.fs e' pf c 0 hmk hw
  | copyf p e =>
    by_cases hpp : p = pf
    · subst hpp
      have he : some e = some (Entry.file c mm) := by
        obtain ⟨_, hsrc2, _, _⟩ := hok
        rw [← hsrc2, hsrc]
      injection he with he2
      subst he2
      exact copyf_step_writes cfg tfail cs st p c mm hnc hup hat hsf hro hInv hf hok htf
    · simp only [stepItem, hft, Bool.false_eq_true, if_false, copyfStep]
      rw [hnc, hup, should_skip_none]
      simp only [Bool.false_eq_true, if_false]
      obtain ⟨hp, hsrc2, hwk, hdl⟩ := hok
      cases e with
      | dir dm2 dcs2 => exact absurd hwk (by simp [isWalkFile])
      | file c2 m2 =>
        have hlk : (islinkE (Entry.file c2 m2) && !cfg.followSymlinks) = false := by
          simp [islinkE]
        simp only [hlk, Bool.false_eq_true, if_false]
        cases hmk : mkdirsE st.fs p.dropLast with
        | error u => exact hw
        | ok e1 =>
          have hw1 := mkdirsE_preserves_file p.dropLast st.fs e1 pf c 0 hmk hw
          have hInv1 := wfInv_mkdirs cs st.fs p.dropLast e1 hInv hdl hmk
          show lookupE (updAt (some e1) p
            (fun _ => (copy_file cfg (tfail p) (Entry.file c2 m2)
              (lookupE (some e1) p) cfg.tmpName st.reg).dst)) pf = some (.file c 0)
          exact updAt_preserves_file p (some e1) _ pf c 0 hw1 (fun hh => hpp hh.symm)
            (slot_not_dir cs (some e1) p hInv1
              (not_dirPath_of_srcAt_file cs p c2 m2 hsrc2))
      | symlink t k mk =>
        have hlk : (islinkE (Entry.symlink t k mk) && !cfg.followSymlinks) = true := by
          simp [islinkE, hfw]
        simp only [hlk, if_true]
        show lookupE (updAt st.fs p
          (fun _ => (copy_file cfg (tfail p) (Entry.symlink t k mk)
            (lookupE st.fs p) cfg.tmpName st.reg).dst)) pf = some (.file c 0)
        exact updAt_preserves_file p st.fs _ pf c 0 hw (fun hh => hpp hh.symm)
          (slot_not_dir cs st.fs p hInv
            (not_dirPath_of_srcAt_symlink cs p t k mk hsrc2))
  | symd p t2 m2 =>
    obtain ⟨hp, hsrc2, hdl⟩ := hok
    have hpp : pf ≠ p := by
      intro hh
      subst hh
      rw [hsrc] at hsrc2
      injection hsrc2 with hx
      exact Entry.noConfusion hx
    have hnd1 := slot_not_dir cs st.fs p hInv
      (not_dirPath_of_srcAt_symlink cs p t2 .toDir m2 hsrc2)
    simp only [stepItem, hft, Bool.false_eq_true, if_false, symdStep]
    cases hcur : lookupE st.fs p with
    | none =>
      simp only [existsE, Bool.false_eq_true, if_false]
      exact updAt_preserves_file p st.fs _ pf c 0 hw hpp (by rw [hcur]; rfl)
    | some e1 =>
      cases e1 with
      | dir dm2 dcs2 => simpa [existsE] using hw
      | file c2 mm2 =>
        simp only [existsE, if_true]
        exact updAt_preserves_file p st.fs _ pf c 0 hw hpp (by rw [hcur]; rfl)
      | symlink t3 k3 m3 =>
        cases k3 with
        | broken =>
          simp only [existsE, Bool.false_eq_true, if_false]
          exact hw
        | toFile =>
          simp only [existsE, if_true]
          exact updAt_preserves_file p st.fs _ pf c 0 hw hpp (by rw [hcur]; rfl)
        | toDir =>
          simp only [existsE, if_true]
          exact updAt_preserves_file p st.fs _ pf c 0 hw hpp (by rw [hcur]; rfl)

/-- Every walk action can only extend the error log. -/
theorem step_errs_mono (cfg : CopyConfig) (tfail : List String → Bool)
    (st : WSt) (it : WItem) (x : List String)
    (hx : x ∈ st.errs) : x ∈ (stepItem cfg tfail st it).errs := by
  cases hft : st.fatal.isSome with
  | true => simpa [stepItem, hft] using hx
  | false =>
    cases it with
    | mkd rel =>
      simp only [stepItem, hft, Bool.false_eq_true, if_false, mkdStep]
      cases hmk : mkdirsE st.fs rel <;> exact hx
    | copyf p e =>
      simp only [stepItem, hft, Bool.false_eq_true, if_false, copyfStep]
      cases hsk : should_skip_copy (existsE (lookupE st.fs p)) cfg.noClobber
          cfg.updateOnly (entryMtime e) (optMtime (lookupE st.fs p)) with
      | true => simpa using hx
      | false =>
        simp only [Bool.false_eq_true, if_false]
        cases hlk : islinkE e && !cfg.followSymlinks with
        | true =>
          simp only [if_true]
          show x ∈ (if (copy_file cfg (tfail p) e
              (lookupE st.fs p) cfg.tmpName st.reg).err.isSome = true
            then st.errs ++ [p] else st.errs)
          split
          · exact List.mem_append_left _ hx
          · exact hx
        | false =>
          simp only [Bool.false_eq_true, if_false]
          cases hmk : mkdirsE st.fs p.dropLast with
          | error u => exact List.mem_append_left _ hx
          | ok e1 =>
            show x ∈ (if (copy_file cfg (tfail p) e
                (lookupE (some e1) p) cfg.tmpName st.reg).err.isSome = true
              then st.errs ++ [p] else st.errs)
            split
            · exact List.mem_append_left _ hx
            · exact hx
    | symd p t m =>
      simp only [stepItem, hft, Bool.false_eq_true, if_false, symdStep]
      cases hcur : lookupE st.fs p with
      | none => simpa [existsE] using hx
      | some e1 =>
        cases e1 with
        | dir _ _ => simpa [existsE] using hx
        | file _ _ => simpa [existsE] using hx
        | symlink t3 k3 m3 => cases k3 <;> simpa [existsE] using hx

/-- Folding sound walk actions preserves the invariant and never sets the
fatal state. -/
theorem inv_fold (cfg : CopyConfig) (tfail : List String → Bool)
    (cs : List (String × Entry))
    (hat : cfg.atomic = true) (hsf : cfg.sendfileOk = true)
    (hro : cfg.replaceOk = true) (hfw : cfg.followSymlinks = false) :
    ∀ (items : List WItem) (st : WSt),
      (∀ it ∈ items, itemOK cs it) → wfInv cs st.fs → st.fatal = none →
      wfInv cs (items.foldl (stepItem cfg tfail) st).fs
        ∧ (items.foldl (stepItem cfg tfail) st).fatal = none := by
  intro items
  induction items with
  | nil => intro st _ hInv hf; exact ⟨hInv, hf⟩
  | cons it rest ih =>
    intro st hall hInv hf
    obtain ⟨h1, h2⟩ := inv_step cfg tfail cs st it hat hsf hro hfw hInv hf
      (hall it (List.mem_cons_self it rest))
    exact ih (stepItem cfg tfail st it)
      (fun it2 hit2 => hall it2 (List.mem_cons_of_mem it hit2)) h1 h2

/-- Folding sound walk actions keeps an already copied non-failing file in
place. -/
theorem keep_fold (cfg : CopyConfig) (tfail : List String → Bool)
    (cs : List (String × Entry)) (pf : List String) (c : Bytes) (mm : Int)
    (hnc : cfg.noClobber = false) (hup : cfg.updateOnly = false)
    (hat : cfg.atomic = true) (hsf : cfg.sendfileOk = true)
    (hro : cfg.replaceOk = true) (hfw : cfg.followSymlinks = false)
    (hsrc : srcAt cs pf = some (.file c mm)) (htf : tfail pf = false) :
    ∀ (items : List WItem) (st : WSt),
      (∀ it ∈ items, itemOK cs it) → wfInv cs st.fs → st.fatal = none →
      lookupE st.fs pf = some (.file c 0) →
      lookupE (items.foldl (stepItem cfg tfail) st).fs pf = some (.file c 0) := by
  intro items
  induction items with
  | nil => intro st _ _ _ hw; exact hw
  | cons it rest ih =>
    intro st hall hInv hf hw
    obtain ⟨h1, h2⟩ := inv_step cfg tfail cs st it hat hsf hro hfw hInv hf
      (hall it (List.mem_cons_self it rest))
    exact ih (stepItem cfg tfail st it)
      (fun it2 hit2 => hall it2 (List.mem_cons_of_mem it hit2)) h1 h2
      (step_keeps_written cfg tfail cs st it pf c mm hnc hup hat hsf hro hfw hInv hf
        (hall it (List.mem_cons_self it rest)) hsrc htf hw)

/-- Folding walk actions never drops reported errors. -/
theorem errs_fold_mono (cfg : CopyConfig) (tfail : List String → Bool) :
    ∀ (items : List WItem) (st : WSt) (x : List String),
      x ∈ st.errs → x ∈ (items.foldl (stepItem cfg tfail) st).errs := by
  intro items
  induction items with
  | nil => intro st x hx; exact hx
  | cons it rest ih =>
    intro st x hx
    exact ih (stepItem cfg tfail st it) x (step_errs_mono cfg tfail st it x hx)

/-- Main fold property behind the failure-isolation claim: every
non-failing regular file of a sound action list ends with its bytes at its
path, and every failing one is reported. -/
theorem walk_fold_main (cfg : CopyConfig) (tfail : List String → Bool)
    (cs : List (String × Entry))
    (hnc : cfg.noClobber = false) (hup : cfg.updateOnly = false)
    (hat : cfg.atomic = true) (hsf : cfg.sendfileOk = true)
    (hro : cfg.replaceOk = true) (hfw : cfg.followSymlinks = false) :
    ∀ (items : List WItem) (st : WSt),
      (∀ it ∈ items, itemOK cs it) → wfInv cs st.fs → st.fatal = none →
      ∀ p c mm, WItem.copyf p (.file c mm) ∈ items →
        (tfail p = false →
          lookupE (items.foldl (stepItem cfg tfail) st).fs p = some (.file c 0))
        ∧ (tfail p = true →
          p ∈ (items.foldl (stepItem cfg tfail) st).errs) := by
  intro items
  induction items with
  | nil =>
    intro st _ _ _ p c mm hmem
    simp at hmem
  | cons it rest ih =>
    intro st hall hInv hf p c mm hmem
    have hok := hall it (List.mem_cons_self it rest)
    obtain ⟨hInv1, hf1⟩ := inv_step cfg tfail cs st it hat hsf hro hfw hInv hf hok
    have hallrest : ∀ it2 ∈ rest, itemOK cs it2 :=
      fun it2 hit2 => hall it2 (List.mem_cons_of_mem it hit2)
    rcases List.mem_cons.mp hmem with heq | hmem2
    · subst heq
      obtain ⟨hp, hsrc, hwk, hdl⟩ := hok
      constructor
      · intro htf
        have hw1 := copyf_step_writes cfg tfail cs st p c mm hnc hup hat hsf hro hInv hf
          ⟨hp, hsrc, hwk, hdl⟩ htf
        exact keep_fold cfg tfail cs p c mm hnc hup hat hsf hro hfw hsrc htf rest
          (stepItem cfg tfail st (.copyf p (.file c mm))) hallrest hInv1 hf1 hw1
      · intro htf
        obtain ⟨herr, _⟩ := copyf_step_reports cfg tfail st p c mm hnc hup hat hf htf
        apply errs_fold_mono cfg tfail rest
        rw [herr]
        exact List.mem_append_right _ (List.mem_singleton.mpr rfl)
    · exact ih (stepItem cfg tfail st it) hallrest hInv1 hf1 p c mm hmem2

/-- C5: during a recursive walk of a well-formed source tree into an empty
destination (default flags, atomic writes, sendfile fast path and rename
available), a failure while copying one file never aborts the walk: the
walk ends with no uncaught exception whatever the failure pattern, every
regular file whose transfer does not fail ends up at its mirrored path
with exactly the source's bytes, and every file whose transfer fails is
reported on the error channel — so with exactly one failing file out of N,
the other N-1 are present and correct. -/
theorem C5_walk_failure_isolation (cfg : CopyConfig) (tfail : List String → Bool)
    (name : String) (dm : Int) (cs : List (String × Entry))
    (hwf : wfC cs = true) (hrec : cfg.recursive = true)
    (hnc : cfg.noClobber = false) (hup : cfg.updateOnly = false)
    (hfw : cfg.followSymlinks = false) (hat : cfg.atomic = true)
    (hsf : cfg.sendfileOk = true) (hro : cfg.replaceOk = true) :
    (copy_tree cfg tfail name (.dir dm cs) none).fatal = none
    ∧ ∀ p c mm, WItem.copyf p (.file c mm) ∈ rootWalk cs →
        (tfail p = false →
          lookupE (copy_tree cfg tfail name (.dir dm cs) none).fs p
            = some (.file c 0))
        ∧ (tfail p = true →
          p ∈ (copy_tree cfg tfail name (.dir dm cs) none).errs) := by
  have hred : copy_tree cfg tfail name (.dir dm cs) none
      = (rootWalk cs).foldl (stepItem cfg tfail) ⟨none, [], [], none⟩ := by
    simp only [copy_tree, existsE, Bool.true_eq_false, if_false, hrec, Bool.not_true,
      Bool.false_eq_true]
  rw [hred]
  have hInv0 : wfInv cs (none : Option Entry) := by
    constructor
    · intro q dm2 dcs2 hl
      cases q with
      | nil => rw [lookupE_nil] at hl; exact Option.noConfusion hl
      | cons _ _ => simp [lookupE] at hl
    · intro q _
      left
      cases q with
      | nil => rw [lookupE_nil]
      | cons _ _ => rfl
  have hall := walk_itemOK cs hwf
  refine ⟨?_, ?_⟩
  · exact (inv_fold cfg tfail cs hat hsf hro hfw (rootWalk cs)
      ⟨none, [], [], none⟩ hall hInv0 rfl).2
  · intro p c mm hmem
    exact walk_fold_main cfg tfail cs hnc hup hat hsf hro hfw (rootWalk cs)
      ⟨none, [], [], none⟩ hall hInv0 rfl p c mm hmem

/-- Witness for C5 at a concrete three-file tree where exactly the copy of
`b` fails: `a` and `sub/c` are present with the source bytes, `b` is
reported. -/
theorem C5_walk_failure_isolation_witness :
    wfC [("a", Entry.file [1] 0), ("b", Entry.file [2] 0),
        ("sub", Entry.dir 0 [("c", Entry.file [3] 0)])] = true
    ∧ cfgA.recursive = true
    ∧ ((copy_tree cfgA failB "r" (.dir 0 [("a", Entry.file [1] 0), ("b", Entry.file [2] 0),
          ("sub", Entry.dir 0 [("c", Entry.file [3] 0)])]) none).fatal = none
      ∧ ∀ p c mm, WItem.copyf p (.file c mm) ∈ rootWalk [("a", Entry.file [1] 0),
            ("b", Entry.file [2] 0), ("sub", Entry.dir 0 [("c", Entry.file [3] 0)])] →
          (failB p = false →
            lookupE (copy_tree cfgA failB "r" (.dir 0 [("a", Entry.file [1] 0),
              ("b", Entry.file [2] 0),
              ("sub", Entry.dir 0 [("c", Entry.file [3] 0)])]) none).fs p
              = some (.file c 0))
          ∧ (failB p = true →
            p ∈ (copy_tree cfgA failB "r" (.dir 0 [("a", Entry.file [1] 0),
              ("b", Entry.file [2] 0),
              ("sub", Entry.dir 0 [("c", Entry.file [3] 0)])]) none).errs)) :=
  ⟨rfl, rfl,
    C5_walk_failure_isolation cfgA failB "r" 0
      [("a", Entry.file [1] 0), ("b", Entry.file [2] 0),
        ("sub", Entry.dir 0 [("c", Entry.file [3] 0)])]
      rfl rfl rfl rfl rfl rfl rfl rfl⟩

end Claims

end Pycp
